import Mathlib

/-!
# Base64 codec (`src/cpp/base64.cpp`): model and verification

Shallow embedding of `base64::GetEncodeMaxOutput`, `base64::GetDecodeMaxOutput`,
`base64::Encode` and `base64::Decode`.

Conventions of the embedding.

* Bytes and characters are natural numbers; a well-formed byte is `< 256`.  A `char` is
  represented by its unsigned code (`'A'` is `65`, the null terminator is `0`).
* `uint32_t` values are natural numbers; every operation that can wrap is followed by an
  explicit `% 2 ^ 32`.
* An input pointer with its length is the list of the bytes in that window:
  `pubData .. pubDataEnd` for `Encode`, whose `cubData` is the length of the list, and the
  first `cchEncodedData` characters of the list `pchEncodedData` for `Decode`, which never
  reads past the declared length.
* The output buffer is only ever written.  A call returns the list of the stores it
  performed, in program order, each one as `(offset from the start of the buffer, value)`.
  `applyStores` replays such a list on a memory.
* A present output pointer is `true`, a null one is `false`.
* Asserts.  The source includes `<assert.h>`; its asserts (lines 58, 127, 148, 232) are
  removed by the preprocessor when `NDEBUG` is defined and abort the program otherwise.
  `Encode`, `Decode` and the definitions they are made of are the functions as compiled
  with `NDEBUG`: the two failing exits return false.  `EncodeA` and `DecodeA` are the
  functions with their asserts, for either build, with the abort as an outcome; the
  theorems of the section "The two builds" relate them to `Encode` and `Decode`.
-/

namespace base64

/-- The wrap-around modulus of `uint32_t`. -/
def U32 : Nat := 2 ^ 32

/-- `GetEncodeMaxOutput`, lines 31-35: `(cubData + 2) / 3 * 4 + 1` in `uint32_t`. -/
def GetEncodeMaxOutput (cubData : Nat) : Nat :=
  (((cubData + 2) % U32 / 3 * 4) % U32 + 1) % U32

/-- `GetDecodeMaxOutput`, lines 39-43: `((cubData + 3) / 4) * 3 + 1` in `uint32_t`. -/
def GetDecodeMaxOutput (cubData : Nat) : Nat :=
  (((cubData + 3) % U32 / 4 * 3) % U32 + 1) % U32

/-- The forward table `pszBase64Chars` selected at lines 66-69, as character codes. -/
def pszBase64Chars (bURLSafe : Bool) : List Nat :=
  (if bURLSafe then
    "ABCDEFGHIJKLMNOPQRSTUVWXYZabcdefghijklmnopqrstuvwxyz0123456789-_"
  else
    "ABCDEFGHIJKLMNOPQRSTUVWXYZabcdefghijklmnopqrstuvwxyz0123456789+/").toList.map Char.toNat

/-- The character `pszBase64Chars[i]`. -/
def encChar (bURLSafe : Bool) (i : Nat) : Nat :=
  (pszBase64Chars bURLSafe).getD i 0

/-- The padding character of the trailing group, lines 114-115:
`bURLSafe ? '\0' : '='`. -/
def padChar (bURLSafe : Bool) : Nat :=
  if bURLSafe then 0 else 61

/-- What `Encode` leaves behind: the returned flag, the value of `*pcchEncodedData` at
exit, and the stores into `pchEncodedData`. -/
structure EncodeResult where
  ok : Bool
  cch : Nat
  stores : List (Nat × Nat)
deriving DecidableEq, Repr

/-- The label `out_of_space`, lines 124-128, as compiled with `NDEBUG`: a terminator is
stored at the current position `pch`, the capacity field receives
`GetEncodeMaxOutput(cubData)`, and the call returns false.  The `assert(false)` of line
127, which aborts a build without `NDEBUG` before the return, is in
`encodeOutOfSpaceA`. -/
def encodeOutOfSpace (cubData pch : Nat) (stores : List (Nat × Nat)) : EncodeResult :=
  { ok := false, cch := GetEncodeMaxOutput cubData, stores := stores ++ [(pch, 0)] }

/-- Lines 78-122 of `Encode`: the loop over the 3-byte groups, the trailing group of one
or two bytes, and the final terminator.  `pch` is `pchEncodedData - pchEncodedDataStart`,
`cch` is the local `cchEncodedData`, the list is `pubData .. pubDataEnd`. -/
def encodeLoop (bURLSafe : Bool) (cubData : Nat) :
    List Nat → Nat → Nat → List (Nat × Nat) → EncodeResult
  | b0 :: b1 :: b2 :: rest, pch, cch, stores =>
    if cch < 4 then encodeOutOfSpace cubData pch stores
    else
      let un24BitsData := ((b0 <<< 16) ||| (b1 <<< 8)) ||| b2
      encodeLoop bURLSafe cubData rest (pch + 4) (cch - 4)
        (stores ++
          [(pch, encChar bURLSafe ((un24BitsData >>> 18) &&& 63)),
           (pch + 1, encChar bURLSafe ((un24BitsData >>> 12) &&& 63)),
           (pch + 2, encChar bURLSafe ((un24BitsData >>> 6) &&& 63)),
           (pch + 3, encChar bURLSafe (un24BitsData &&& 63))])
  | [b0, b1], pch, cch, stores =>
    if cch < 4 then encodeOutOfSpace cubData pch stores
    else
      let un24BitsData := (b0 <<< 16) ||| (b1 <<< 8)
      { ok := true, cch := pch + 4,
        stores := stores ++
          [(pch, encChar bURLSafe ((un24BitsData >>> 18) &&& 63)),
           (pch + 1, encChar bURLSafe ((un24BitsData >>> 12) &&& 63)),
           (pch + 2, encChar bURLSafe ((un24BitsData >>> 6) &&& 63)),
           (pch + 3, padChar bURLSafe),
           (pch + 4, 0)] }
  | [b0], pch, cch, stores =>
    if cch < 4 then encodeOutOfSpace cubData pch stores
    else
      let un24BitsData := b0 <<< 16
      { ok := true, cch := pch + 4,
        stores := stores ++
          [(pch, encChar bURLSafe ((un24BitsData >>> 18) &&& 63)),
           (pch + 1, encChar bURLSafe ((un24BitsData >>> 12) &&& 63)),
           (pch + 2, padChar bURLSafe),
           (pch + 3, padChar bURLSafe),
           (pch + 4, 0)] }
  | [], pch, _, stores =>
    { ok := true, cch := pch, stores := stores ++ [(pch, 0)] }

/-- `Encode`, lines 54-129, as compiled with `NDEBUG` (`EncodeA` has the asserts of lines
58 and 127).  `pubData` is the input window (`cubData` is its length), `pchEncodedData`
says whether the output pointer is non-null, `cchEncodedData` is the value of
`*pcchEncodedData` at entry. -/
def Encode (pubData : List Nat) (pchEncodedData : Bool) (cchEncodedData : Nat)
    (bURLSafe : Bool) : EncodeResult :=
  if !pchEncodedData then
    { ok := true, cch := GetEncodeMaxOutput pubData.length, stores := [] }
  else if cchEncodedData = 0 then
    encodeOutOfSpace pubData.length 0 []
  else
    encodeLoop bURLSafe pubData.length pubData 0 (cchEncodedData - 1) []

/-- What `Decode` leaves behind: the returned flag, the value of `*pcubDecodedData` at
exit, and the stores into `pubDecodedData`. -/
structure DecodeResult where
  ok : Bool
  cub : Nat
  stores : List (Nat × Nat)
deriving DecidableEq, Repr

/-- The inverse table `rgchInvBase64`, lines 154-162: entries `0 .. 63` for the symbols,
`-1` for an invalid character, `-2` for `'='`; index `0` is `'+'` (`0x2B`). -/
def rgchInvBase64 : List Int :=
  [ 62, -1, -1, -1, 63, 52, 53, 54, 55, 56, 57, 58, 59, 60, 61,
    -1, -1, -1, -2, -1, -1, -1,  0,  1,  2,  3,  4,  5,  6,  7,
     8,  9, 10, 11, 12, 13, 14, 15, 16, 17, 18, 19, 20, 21, 22,
    23, 24, 25, -1, -1, -1, -1, -1, -1, 26, 27, 28, 29, 30, 31,
    32, 33, 34, 35, 36, 37, 38, 39, 40, 41, 42, 43, 44, 45, 46,
    47, 48, 49, 50, 51 ]

/-- `sizeof(rgchInvBase64) / sizeof(rgchInvBase64[0])`, line 164. -/
def nInvBaseLen : Nat := rgchInvBase64.length

/-- `(uint8_t)(c - 0x2B)` for a character of code `c`. -/
def invIndex (c : Nat) : Nat := (c + 256 - 0x2B) % 256

/-- How lines 170-191 of `Decode` dispose of one input character. -/
inductive CharClass where
  /-- The character is a symbol, with this 6-bit value. -/
  | sym (v : Nat)
  /-- A null character or `'='`: `break`. -/
  | stop
  /-- Any other character: `goto decode_failed`. -/
  | invalid
deriving DecidableEq, Repr

/-- Lines 170-191 of `Decode`: the range test on `(uint8_t)(c - 0x2B)`, the null test,
the translation of `'-'` and `'_'` in URL-safe mode, the table lookup and the test of
its sign. -/
def classify (bURLSafe : Bool) (c : Nat) : CharClass :=
  if invIndex c ≥ nInvBaseLen then
    if c = 0 then CharClass.stop else CharClass.invalid
  else
    let c1 := if bURLSafe then (if c = 45 then 43 else if c = 95 then 47 else c) else c
    let v := rgchInvBase64.getD (invIndex c1) (-1)
    if v < 0 then
      if v = -2 then CharClass.stop else CharClass.invalid
    else CharClass.sym v.toNat

/-- The locals of `Decode` that the scanning loop updates: `un24BitsWithSentinel`,
`cubDecodedData`, the offset `pubDecodedData - start` and the stores done so far. -/
structure DecodeState where
  un24 : Nat
  cub : Nat
  pub : Nat
  stores : List (Nat × Nat)
deriving DecidableEq, Repr

/-- The scanning loop of `Decode`, lines 166-214, over the characters of the declared
window.  The flag of the result is `false` when the loop left through
`goto decode_failed`, and `true` when it ended or left through `break`. -/
def decodeLoop (bURLSafe pubDecodedData : Bool) : List Nat → DecodeState → Bool × DecodeState
  | [], st => (true, st)
  | c :: rest, st =>
    match classify bURLSafe c with
    | CharClass.stop => (true, st)
    | CharClass.invalid => (false, st)
    | CharClass.sym v =>
      let un24 := ((st.un24 <<< 6) % U32) ||| v
      if un24 &&& (1 <<< 24) ≠ 0 then
        if st.cub < 3 then (true, { st with un24 := un24 })
        else
          decodeLoop bURLSafe pubDecodedData rest
            { un24 := 1
              cub := st.cub - 3
              pub := if pubDecodedData then st.pub + 3 else st.pub
              stores :=
                if pubDecodedData then
                  st.stores ++
                    [(st.pub, (un24 >>> 16) % 256),
                     (st.pub + 1, (un24 >>> 8) % 256),
                     (st.pub + 2, un24 % 256)]
                else st.stores }
      else decodeLoop bURLSafe pubDecodedData rest { st with un24 := un24 }

/-- The loop of lines 221-225: `while (un24 < (1 << 24)) { nWriteBytes--; un24 <<= 6; }`.
The first argument bounds the number of iterations; `tailShift_done` shows that the
bound used by `Decode` is never reached. -/
def tailShift : Nat → Nat → Int → Nat × Int
  | 0, un24, nWriteBytes => (un24, nWriteBytes)
  | fuel + 1, un24, nWriteBytes =>
    if un24 < 1 <<< 24 then tailShift fuel ((un24 <<< 6) % U32) (nWriteBytes - 1)
    else (un24, nWriteBytes)

/-- The loop of lines 228-243, `while (nWriteBytes-- > 0)`, run for the `n` remaining
iterations, as compiled with `NDEBUG`.  The flag is `false` when it left through
`goto decode_failed`.  The `assert(false)` of line 232, which aborts a build without
`NDEBUG` before the jump, is in `tailWriteA`. -/
def tailWrite (pubDecodedData : Bool) : Nat → DecodeState → Bool × DecodeState
  | 0, st => (true, st)
  | n + 1, st =>
    if st.cub = 0 then (false, st)
    else
      tailWrite pubDecodedData n
        { un24 := (st.un24 <<< 8) % U32
          cub := st.cub - 1
          pub := if pubDecodedData then st.pub + 1 else st.pub
          stores :=
            if pubDecodedData then st.stores ++ [(st.pub, (st.un24 >>> 16) % 256)]
            else st.stores }

/-- Lines 217-244 of `Decode`: the flush of the bytes still held in the accumulator. -/
def decodeTail (pubDecodedData : Bool) (st : DecodeState) : Bool × DecodeState :=
  if st.un24 ≥ 1 <<< 6 then
    let r := tailShift 4 st.un24 3
    tailWrite pubDecodedData r.2.toNat { st with un24 := r.1 }
  else (true, st)

/-- `Decode`, lines 141-252, as compiled with `NDEBUG` (`DecodeA` has the asserts of
lines 148 and 232).  `pchEncodedData` holds the input characters and `cchEncodedData` is
the declared length, `pubDecodedData` says whether the output pointer is non-null,
`cubDecodedData` is the value of `*pcubDecodedData` at entry. -/
def Decode (pchEncodedData : List Nat) (cchEncodedData : Nat) (pubDecodedData : Bool)
    (cubDecodedData : Nat) (bURLSafe : Bool) : DecodeResult :=
  let cubDecodedDataOrig := if pubDecodedData then cubDecodedData else U32 - 1
  let scan := decodeLoop bURLSafe pubDecodedData (pchEncodedData.take cchEncodedData)
    { un24 := 1, cub := cubDecodedDataOrig, pub := 0, stores := [] }
  -- after `break` or the end of the input: lines 217-244; after `goto decode_failed`: nothing
  let fin := if scan.1 then decodeTail pubDecodedData scan.2 else (false, scan.2)
  -- lines 246-247 and 250-251 store the same difference
  { ok := fin.1
    cub := (cubDecodedDataOrig + U32 - fin.2.cub) % U32
    stores := fin.2.stores }

/-- The memory after a list of stores has been performed on `mem`, the buffer starting
at address `0`. -/
def applyStores (mem : Nat → Nat) : List (Nat × Nat) → Nat → Nat
  | [] => mem
  | (off, val) :: rest => applyStores (Function.update mem off val) rest

/-- The first `n` cells of a memory. -/
def readMem (mem : Nat → Nat) (n : Nat) : List Nat :=
  (List.range n).map mem


/-! ## The functions with their asserts

`base64.cpp` includes `<assert.h>` and runs `assert` at lines 58, 127, 148 and 232.  A
build with `NDEBUG` defined removes them; a build without it aborts the program where the
asserted condition is false.  `Encode` and `Decode` above are the functions of a build
with `NDEBUG`.  The definitions below take the build as a parameter and have the abort as
an outcome. -/

/-- How a call ends: it returns its flag, or an `assert` aborts the program. -/
inductive CallExit where
  | returned (flag : Bool)
  | aborted
deriving DecidableEq, Repr

/-- The end of a path on which the source runs `assert(false)` and then returns false
(lines 127-128) or jumps to `decode_failed` (lines 232-233): with `NDEBUG` the call
returns false, without it the program aborts at the assert. -/
def assertFalse (NDEBUG : Bool) : CallExit :=
  if NDEBUG then CallExit.returned false else CallExit.aborted

/-- What a call of `Encode` leaves behind in a given build: how it ends, the value of
`*pcchEncodedData` at that point, and the stores into `pchEncodedData`. -/
structure EncodeOutcome where
  exit : CallExit
  cch : Nat
  stores : List (Nat × Nat)
deriving DecidableEq, Repr

/-- The label `out_of_space`, lines 124-128, with its assert: the terminator is stored
at the current position, the capacity field receives `GetEncodeMaxOutput(cubData)`, then
`assert(false)` runs before `return false`. -/
def encodeOutOfSpaceA (NDEBUG : Bool) (cubData pch : Nat) (stores : List (Nat × Nat)) :
    EncodeOutcome :=
  { exit := assertFalse NDEBUG
    cch := GetEncodeMaxOutput cubData
    stores := stores ++ [(pch, 0)] }

/-- Lines 78-122 of `Encode` as in `encodeLoop`, leaving through `encodeOutOfSpaceA`. -/
def encodeLoopA (NDEBUG bURLSafe : Bool) (cubData : Nat) :
    List Nat → Nat → Nat → List (Nat × Nat) → EncodeOutcome
  | b0 :: b1 :: b2 :: rest, pch, cch, stores =>
    if cch < 4 then encodeOutOfSpaceA NDEBUG cubData pch stores
    else
      let un24BitsData := ((b0 <<< 16) ||| (b1 <<< 8)) ||| b2
      encodeLoopA NDEBUG bURLSafe cubData rest (pch + 4) (cch - 4)
        (stores ++
          [(pch, encChar bURLSafe ((un24BitsData >>> 18) &&& 63)),
           (pch + 1, encChar bURLSafe ((un24BitsData >>> 12) &&& 63)),
           (pch + 2, encChar bURLSafe ((un24BitsData >>> 6) &&& 63)),
           (pch + 3, encChar bURLSafe (un24BitsData &&& 63))])
  | [b0, b1], pch, cch, stores =>
    if cch < 4 then encodeOutOfSpaceA NDEBUG cubData pch stores
    else
      let un24BitsData := (b0 <<< 16) ||| (b1 <<< 8)
      { exit := CallExit.returned true, cch := pch + 4,
        stores := stores ++
          [(pch, encChar bURLSafe ((un24BitsData >>> 18) &&& 63)),
           (pch + 1, encChar bURLSafe ((un24BitsData >>> 12) &&& 63)),
           (pch + 2, encChar bURLSafe ((un24BitsData >>> 6) &&& 63)),
           (pch + 3, padChar bURLSafe),
           (pch + 4, 0)] }
  | [b0], pch, cch, stores =>
    if cch < 4 then encodeOutOfSpaceA NDEBUG cubData pch stores
    else
      let un24BitsData := b0 <<< 16
      { exit := CallExit.returned true, cch := pch + 4,
        stores := stores ++
          [(pch, encChar bURLSafe ((un24BitsData >>> 18) &&& 63)),
           (pch + 1, encChar bURLSafe ((un24BitsData >>> 12) &&& 63)),
           (pch + 2, padChar bURLSafe),
           (pch + 3, padChar bURLSafe),
           (pch + 4, 0)] }
  | [], pch, _, stores =>
    { exit := CallExit.returned true, cch := pch, stores := stores ++ [(pch, 0)] }

/-- `Encode`, lines 54-129, with its asserts.  Without `NDEBUG` a null output pointer with
a non-zero `*pcchEncodedData` aborts at line 58, before anything is written, and
`out_of_space` aborts at line 127, after its two writes. -/
def EncodeA (NDEBUG : Bool) (pubData : List Nat) (pchEncodedData : Bool)
    (cchEncodedData : Nat) (bURLSafe : Bool) : EncodeOutcome :=
  if !pchEncodedData then
    if !NDEBUG && cchEncodedData != 0 then
      { exit := CallExit.aborted, cch := cchEncodedData, stores := [] }
    else
      { exit := CallExit.returned true, cch := GetEncodeMaxOutput pubData.length,
        stores := [] }
  else if cchEncodedData = 0 then
    encodeOutOfSpaceA NDEBUG pubData.length 0 []
  else
    encodeLoopA NDEBUG bURLSafe pubData.length pubData 0 (cchEncodedData - 1) []

/-- What a call of `Decode` leaves behind in a given build: how it ends, the value of
`*pcubDecodedData` at that point, and the stores into `pubDecodedData`. -/
structure DecodeOutcome where
  exit : CallExit
  cub : Nat
  stores : List (Nat × Nat)
deriving DecidableEq, Repr

/-- The loop of lines 228-243 with its assert: when the capacity is exhausted,
`assert(false)` of line 232 runs before `goto decode_failed`. -/
def tailWriteA (NDEBUG pubDecodedData : Bool) : Nat → DecodeState → CallExit × DecodeState
  | 0, st => (CallExit.returned true, st)
  | n + 1, st =>
    if st.cub = 0 then (assertFalse NDEBUG, st)
    else
      tailWriteA NDEBUG pubDecodedData n
        { un24 := (st.un24 <<< 8) % U32
          cub := st.cub - 1
          pub := if pubDecodedData then st.pub + 1 else st.pub
          stores :=
            if pubDecodedData then st.stores ++ [(st.pub, (st.un24 >>> 16) % 256)]
            else st.stores }

/-- Lines 217-244 of `Decode` as in `decodeTail`, with the assert of line 232. -/
def decodeTailA (NDEBUG pubDecodedData : Bool) (st : DecodeState) :
    CallExit × DecodeState :=
  if st.un24 ≥ 1 <<< 6 then
    let r := tailShift 4 st.un24 3
    tailWriteA NDEBUG pubDecodedData r.2.toNat { st with un24 := r.1 }
  else (CallExit.returned true, st)

/-- `Decode`, lines 141-252, with its asserts.  Without `NDEBUG` a null output pointer
with a non-zero `*pcubDecodedData` aborts at line 148, and an exhausted capacity in the
final flush aborts at line 232; in both cases `*pcubDecodedData` keeps its value at
entry, since lines 246 and 250 are not reached.  The scanning loop has no assert. -/
def DecodeA (NDEBUG : Bool) (pchEncodedData : List Nat) (cchEncodedData : Nat)
    (pubDecodedData : Bool) (cubDecodedData : Nat) (bURLSafe : Bool) : DecodeOutcome :=
  if !pubDecodedData && !NDEBUG && cubDecodedData != 0 then
    { exit := CallExit.aborted, cub := cubDecodedData, stores := [] }
  else
    let cubDecodedDataOrig := if pubDecodedData then cubDecodedData else U32 - 1
    let scan := decodeLoop bURLSafe pubDecodedData (pchEncodedData.take cchEncodedData)
      { un24 := 1, cub := cubDecodedDataOrig, pub := 0, stores := [] }
    if scan.1 then
      let fin := decodeTailA NDEBUG pubDecodedData scan.2
      match fin.1 with
      | CallExit.returned flag =>
        { exit := CallExit.returned flag
          cub := (cubDecodedDataOrig + U32 - fin.2.cub) % U32
          stores := fin.2.stores }
      | CallExit.aborted =>
        { exit := CallExit.aborted, cub := cubDecodedData, stores := fin.2.stores }
    else
      { exit := CallExit.returned false
        cub := (cubDecodedDataOrig + U32 - scan.2.cub) % U32
        stores := scan.2.stores }

/-! ## Auxiliary functions of the proofs -/

/-- The 6-bit indices that `Encode` looks up for an input, group by group, computed with
the expressions of lines 86-94 and 106-114. -/
def sextets : List Nat → List Nat
  | b0 :: b1 :: b2 :: rest =>
    let un24BitsData := ((b0 <<< 16) ||| (b1 <<< 8)) ||| b2
    ((un24BitsData >>> 18) &&& 63) :: ((un24BitsData >>> 12) &&& 63) ::
      ((un24BitsData >>> 6) &&& 63) :: (un24BitsData &&& 63) :: sextets rest
  | [b0, b1] =>
    let un24BitsData := (b0 <<< 16) ||| (b1 <<< 8)
    [(un24BitsData >>> 18) &&& 63, (un24BitsData >>> 12) &&& 63, (un24BitsData >>> 6) &&& 63]
  | [b0] =>
    let un24BitsData := b0 <<< 16
    [(un24BitsData >>> 18) &&& 63, (un24BitsData >>> 12) &&& 63]
  | [] => []

/-- Number of padding positions of the trailing group of an input of `n` bytes. -/
def padCount (n : Nat) : Nat := (3 - n % 3) % 3

/-- The characters that a successful `Encode` stores before the final terminator. -/
def encodeChars (bURLSafe : Bool) (pubData : List Nat) : List Nat :=
  (sextets pubData).map (encChar bURLSafe) ++
    List.replicate (padCount pubData.length) (padChar bURLSafe)

/-- The bytes packed in a sequence of 6-bit values: three bytes for each four values, and
one or two bytes for a trailing group of two or three values. -/
def octets : List Nat → List Nat
  | v0 :: v1 :: v2 :: v3 :: rest =>
    (v0 * 4 + v1 / 16) :: (v1 % 16 * 16 + v2 / 4) :: (v2 % 4 * 64 + v3) :: octets rest
  | [v0, v1, v2] => [v0 * 4 + v1 / 16, v1 % 16 * 16 + v2 / 4]
  | [v0, v1] => [v0 * 4 + v1 / 16]
  | [_] => []
  | [] => []

/-- The decoded length of `k` symbols: `3 * floor(k / 4) + t` with `t = 0, 0, 1, 2` for
`k mod 4 = 0, 1, 2, 3`. -/
def decodedLen (k : Nat) : Nat :=
  3 * (k / 4) + (if k % 4 = 2 then 1 else if k % 4 = 3 then 2 else 0)

/-- The 6-bit value of a character that `Decode` takes for a symbol (`0` otherwise). -/
def symValue (bURLSafe : Bool) (c : Nat) : Nat :=
  match classify bURLSafe c with
  | CharClass.sym v => v
  | _ => 0

/-- Whether `Decode` takes the character for a symbol. -/
def isSym (bURLSafe : Bool) (c : Nat) : Bool :=
  match classify bURLSafe c with
  | CharClass.sym _ => true
  | _ => false

/-- The scan of `Decode` followed by the flush of the accumulator, as in `Decode`: the
flag, the final `cubDecodedData` and the stores. -/
def decodeRun (bURLSafe pubDecodedData : Bool) (chars : List Nat) (st : DecodeState) :
    Bool × Nat × List (Nat × Nat) :=
  let scan := decodeLoop bURLSafe pubDecodedData chars st
  let fin := if scan.1 then decodeTail pubDecodedData scan.2 else (false, scan.2)
  (fin.1, fin.2.cub, fin.2.stores)

/-- The bytes that the loop of lines 228-243 takes out of the accumulator in `n`
iterations. -/
def tailBytes : Nat → Nat → List Nat
  | 0, _ => []
  | n + 1, un24 => (un24 >>> 16) % 256 :: tailBytes n ((un24 <<< 8) % U32)

/-- The bytes that the accumulator `un24BitsWithSentinel` owes when the scan ends: none
below the sentinel position 12, one byte at sentinel position 12, two at 18, three at
24. -/
def pendingBytes (un24 : Nat) : List Nat :=
  if un24 < 4096 then []
  else if un24 < 262144 then [un24 / 16 % 256]
  else if un24 < 16777216 then [un24 / 1024 % 256, un24 / 4 % 256]
  else [un24 / 65536 % 256, un24 / 256 % 256, un24 % 256]

/-- What ends a run of symbols for the scan of `Decode`: the end of the input, or a
character on which the scan breaks. -/
def EndsScan (bURLSafe : Bool) (tl : List Nat) : Prop :=
  tl = [] ∨ ∃ c r, tl = c :: r ∧ classify bURLSafe c = CharClass.stop

/-- A list of bytes. -/
def IsBytes (l : List Nat) : Prop := ∀ b ∈ l, b < 256

instance (l : List Nat) : Decidable (IsBytes l) := by
  unfold IsBytes; infer_instance

/-! ## The words of the specification -/

/-- The character codes of a string. -/
def codes (s : String) : List Nat := s.toList.map Char.toNat

/-- The C string held in a list of characters: what precedes the first null. -/
def cString (l : List Nat) : List Nat := l.takeWhile (fun c => c ≠ 0)

/-- The standard alphabet as the specification lists it: `A-Z a-z 0-9 + /`. -/
def stdAlphabet : List Nat :=
  (List.range 26).map (fun i => 65 + i) ++ (List.range 26).map (fun i => 97 + i) ++
    (List.range 10).map (fun i => 48 + i) ++ [43, 47]

/-- The symbol of a 6-bit index in the standard alphabet. -/
def stdSymbol (i : Nat) : Nat := stdAlphabet.getD i 0

/-- RFC 4648 Base64 of a byte sequence, in the words of the specification: each 3-byte
group gives the four symbols of its four 6-bit indices, most significant first; a
trailing group of 1 or 2 bytes is packed with the missing bytes as zero and its last 2 or
1 positions hold `'='`. -/
def rfc4648 : List Nat → List Nat
  | b0 :: b1 :: b2 :: rest =>
    let g := b0 * 2 ^ 16 + b1 * 2 ^ 8 + b2
    stdSymbol (g / 2 ^ 18 % 64) :: stdSymbol (g / 2 ^ 12 % 64) ::
      stdSymbol (g / 2 ^ 6 % 64) :: stdSymbol (g % 64) :: rfc4648 rest
  | [b0, b1] =>
    let g := b0 * 2 ^ 16 + b1 * 2 ^ 8 + 0
    [stdSymbol (g / 2 ^ 18 % 64), stdSymbol (g / 2 ^ 12 % 64), stdSymbol (g / 2 ^ 6 % 64), 61]
  | [b0] =>
    let g := b0 * 2 ^ 16 + 0 * 2 ^ 8 + 0
    [stdSymbol (g / 2 ^ 18 % 64), stdSymbol (g / 2 ^ 12 % 64), 61, 61]
  | [] => []

/-- The URL-safe alphabet as the specification lists it: `A-Z a-z 0-9 - _`. -/
def urlAlphabet : List Nat :=
  (List.range 26).map (fun i => 65 + i) ++ (List.range 26).map (fun i => 97 + i) ++
    (List.range 10).map (fun i => 48 + i) ++ [45, 95]

/-- The alphabet that the mode selects. -/
def alphabet (bURLSafe : Bool) : List Nat :=
  if bURLSafe then urlAlphabet else stdAlphabet

/-- A null character or `'='`. -/
def stopChar (c : Nat) : Bool := c == 0 || c == 61

/-- The characters of the input before the first null or `'='` within the first `n`
characters. -/
def scanned (s : List Nat) (n : Nat) : List Nat :=
  (s.take n).takeWhile (fun c => !stopChar c)

/-- The characters that count as symbols for `Decode`: those of the selected alphabet
and, in URL-safe mode, `'+'` and `'/'` as well. -/
def accepted (bURLSafe : Bool) (c : Nat) : Bool :=
  decide (c ∈ alphabet bURLSafe) || (bURLSafe && (c == 43 || c == 47))

/-- The six bits of a 6-bit value, most significant first. -/
def bits6 (v : Nat) : List Nat :=
  [v / 32 % 2, v / 16 % 2, v / 8 % 2, v / 4 % 2, v / 2 % 2, v % 2]

/-- The complete bytes of a bit string, each of eight bits, most significant first. -/
def bytesOfBits : List Nat → List Nat
  | a :: b :: c :: d :: e :: f :: g :: h :: rest =>
    (a * 128 + b * 64 + c * 32 + d * 16 + e * 8 + f * 4 + g * 2 + h) :: bytesOfBits rest
  | _ => []

/-- The bit string `v1 v2 ... vk` of the 6-bit values of a sequence of symbols of the
selected alphabet. -/
def bitString (bURLSafe : Bool) (symbols : List Nat) : List Nat :=
  symbols.flatMap (fun c => bits6 ((alphabet bURLSafe).indexOf c))

/-- The example avatar id of `examples/encode_aid.cpp`, lines 33-37. -/
def raw_aid : List Nat := [0x96, 0x46, 0xe9, 0x99, 0x8a, 0x32, 0x85, 0x53, 0x3a]

/-- The 6-bit value of a character that counts as a symbol for `Decode`: its position in
the selected alphabet, and 62 and 63 for `'+'` and `'/'` in URL-safe mode. -/
def symbolValue (bURLSafe : Bool) (c : Nat) : Nat :=
  if bURLSafe && c == 43 then 62
  else if bURLSafe && c == 47 then 63
  else (alphabet bURLSafe).indexOf c

/-- A string without its trailing `'='` characters. -/
def stripPadding (l : List Nat) : List Nat :=
  (l.reverse.dropWhile (fun c => c == 61)).reverse

/-- A character with `'+'` replaced by `'-'` and `'/'` replaced by `'_'`. -/
def toUrlSafe (c : Nat) : Nat :=
  if c = 43 then 45 else if c = 47 then 95 else c

/-! ## Arithmetic of the bit operations -/

theorem and63 (x : Nat) : x &&& 63 = x % 64 := Nat.and_pow_two_sub_one_eq_mod x 6

theorem or_eq_add (a b i : Nat) (h : b < 2 ^ i) : (a * 2 ^ i) ||| b = a * 2 ^ i + b := by
  rw [Nat.mul_comm, Nat.mul_add_lt_is_or h]

theorem bit24 (u : Nat) : (u &&& (1 <<< 24) ≠ 0) ↔ u / 2 ^ 24 % 2 = 1 := by
  have h : (1 <<< 24 : Nat) = 2 ^ 24 := by decide
  rw [h, Nat.and_two_pow, ← Nat.toNat_testBit]
  cases Nat.testBit u 24 <;> simp

theorem group3_eq (b0 b1 b2 : Nat) (h1 : b1 < 256) (h2 : b2 < 256) :
    ((b0 <<< 16) ||| (b1 <<< 8)) ||| b2 = b0 * 65536 + b1 * 256 + b2 := by
  have e1 : (b0 <<< 16) ||| (b1 <<< 8) = b0 * 65536 + b1 * 256 := by
    rw [Nat.shiftLeft_eq, Nat.shiftLeft_eq, or_eq_add _ _ 16 (by omega)]
    norm_num
  rw [e1]
  have e2 : b0 * 65536 + b1 * 256 = (b0 * 256 + b1) * 2 ^ 8 := by omega
  rw [e2, or_eq_add _ _ 8 (by omega)]

theorem group2_eq (b0 b1 : Nat) (h1 : b1 < 256) :
    (b0 <<< 16) ||| (b1 <<< 8) = b0 * 65536 + b1 * 256 := by
  rw [Nat.shiftLeft_eq, Nat.shiftLeft_eq, or_eq_add _ _ 16 (by omega)]
  norm_num

/-! ## Encode -/

theorem sextets_length (B : List Nat) : (sextets B).length = B.length / 3 * 4 +
    (if B.length % 3 = 0 then 0 else B.length % 3 + 1) := by
  induction B using sextets.induct with
  | case1 b0 b1 b2 rest ih =>
    simp only [sextets, List.length_cons, ih]
    split <;> split <;> omega
  | case2 b0 b1 => simp [sextets]
  | case3 b0 => simp [sextets]
  | case4 => simp [sextets]

theorem encodeChars_length (url : Bool) (B : List Nat) :
    (encodeChars url B).length = (B.length + 2) / 3 * 4 := by
  simp only [encodeChars, List.length_append, List.length_map, List.length_replicate,
    sextets_length, padCount]
  split <;> omega

theorem encodeChars_cons3 (url : Bool) (b0 b1 b2 : Nat) (rest : List Nat) :
    encodeChars url (b0 :: b1 :: b2 :: rest) =
      encChar url (((((b0 <<< 16) ||| (b1 <<< 8)) ||| b2) >>> 18) &&& 63) ::
      encChar url (((((b0 <<< 16) ||| (b1 <<< 8)) ||| b2) >>> 12) &&& 63) ::
      encChar url (((((b0 <<< 16) ||| (b1 <<< 8)) ||| b2) >>> 6) &&& 63) ::
      encChar url ((((b0 <<< 16) ||| (b1 <<< 8)) ||| b2) &&& 63) :: encodeChars url rest := by
  have h : padCount (rest.length + 1 + 1 + 1) = padCount rest.length := by
    simp only [padCount]; omega
  simp [encodeChars, sextets, h]

/-- With room for every group and the terminator, the loop of `Encode` stores the
characters of `encodeChars` one after the other, then the terminator, and succeeds. -/
theorem encodeLoop_ok (url : Bool) (n : Nat) (B : List Nat) :
    ∀ pch cch stores, (B.length + 2) / 3 * 4 ≤ cch →
      encodeLoop url n B pch cch stores =
        { ok := true, cch := pch + (B.length + 2) / 3 * 4,
          stores := stores ++ List.enumFrom pch (encodeChars url B ++ [0]) } := by
  induction B using sextets.induct with
  | case1 b0 b1 b2 rest ih =>
    intro pch cch stores h
    simp only [List.length_cons] at h
    have h4 : ¬ cch < 4 := by omega
    rw [encodeLoop, if_neg h4, ih (pch + 4) (cch - 4) _ (by omega), encodeChars_cons3]
    simp only [List.length_cons, List.cons_append, List.enumFrom_cons, List.append_assoc,
      List.singleton_append, EncodeResult.mk.injEq, true_and]
    constructor
    · omega
    · rfl
  | case2 b0 b1 =>
    intro pch cch stores h
    simp only [List.length_cons, List.length_nil] at h
    have h4 : ¬ cch < 4 := by omega
    rw [encodeLoop, if_neg h4]
    simp [encodeChars, sextets, padCount, List.enumFrom_cons]
  | case3 b0 =>
    intro pch cch stores h
    simp only [List.length_cons, List.length_nil] at h
    have h4 : ¬ cch < 4 := by omega
    rw [encodeLoop, if_neg h4]
    simp [encodeChars, sextets, padCount, List.enumFrom_cons, List.replicate]
  | case4 =>
    intro pch cch stores _
    simp [encodeLoop, encodeChars, sextets, padCount]

/-- Without room for every group and the terminator, the loop of `Encode` fails and
reports `GetEncodeMaxOutput`. -/
theorem encodeLoop_fail (url : Bool) (n : Nat) (B : List Nat) :
    ∀ pch cch stores, cch < (B.length + 2) / 3 * 4 →
      (encodeLoop url n B pch cch stores).ok = false ∧
      (encodeLoop url n B pch cch stores).cch = GetEncodeMaxOutput n := by
  induction B using sextets.induct with
  | case1 b0 b1 b2 rest ih =>
    intro pch cch stores h
    simp only [List.length_cons] at h
    rw [encodeLoop]
    by_cases h4 : cch < 4
    · simp [h4, encodeOutOfSpace]
    · rw [if_neg h4]
      exact ih (pch + 4) (cch - 4) _ (by omega)
  | case2 b0 b1 =>
    intro pch cch stores h
    simp only [List.length_cons, List.length_nil] at h
    have h4 : cch < 4 := by omega
    simp [encodeLoop, h4, encodeOutOfSpace]
  | case3 b0 =>
    intro pch cch stores h
    simp only [List.length_cons, List.length_nil] at h
    have h4 : cch < 4 := by omega
    simp [encodeLoop, h4, encodeOutOfSpace]
  | case4 =>
    intro pch cch stores h
    simp at h


theorem GetEncodeMaxOutput_eq (n : Nat) (h : (n + 2) / 3 * 4 + 1 < 2 ^ 32) :
    GetEncodeMaxOutput n = (n + 2) / 3 * 4 + 1 := by
  have h1 : n + 2 < 2 ^ 32 := by omega
  have h2 : (n + 2) / 3 * 4 < 2 ^ 32 := by omega
  unfold GetEncodeMaxOutput U32
  rw [Nat.mod_eq_of_lt h1, Nat.mod_eq_of_lt h2, Nat.mod_eq_of_lt h]

/-- A present buffer with room for every group and the terminator: `Encode` succeeds,
having stored the characters of `encodeChars` and the terminator from offset `0`. -/
theorem Encode_ok (url : Bool) (B : List Nat) (c : Nat) (h : (B.length + 2) / 3 * 4 + 1 ≤ c) :
    Encode B true c url =
      { ok := true, cch := (B.length + 2) / 3 * 4,
        stores := List.enumFrom 0 (encodeChars url B ++ [0]) } := by
  have h0 : ¬ c = 0 := by omega
  simp only [Encode, Bool.not_true, Bool.false_eq_true, if_false, if_neg h0]
  rw [encodeLoop_ok url B.length B 0 (c - 1) [] (by omega)]
  simp

/-- A present buffer without room for every group and the terminator: `Encode` fails
and reports `GetEncodeMaxOutput`. -/
theorem Encode_fail (url : Bool) (B : List Nat) (c : Nat) (h : c < (B.length + 2) / 3 * 4 + 1) :
    (Encode B true c url).ok = false ∧
    (Encode B true c url).cch = GetEncodeMaxOutput B.length := by
  simp only [Encode, Bool.not_true, Bool.false_eq_true, if_false]
  by_cases h0 : c = 0
  · simp [h0, encodeOutOfSpace]
  · rw [if_neg h0]
    exact encodeLoop_fail url B.length B 0 (c - 1) [] (by omega)

theorem applyStores_enumFrom (l : List Nat) : ∀ (mem : Nat → Nat) (k i : Nat),
    applyStores mem (List.enumFrom k l) i =
      if h : k ≤ i ∧ i - k < l.length then l.get ⟨i - k, h.2⟩ else mem i := by
  induction l with
  | nil => intro mem k i; simp [applyStores]
  | cons a l ih =>
    intro mem k i
    rw [List.enumFrom_cons, applyStores, ih]
    by_cases h1 : k + 1 ≤ i ∧ i - (k + 1) < l.length
    · have h2 : k ≤ i ∧ i - k < (a :: l).length := by
        simp only [List.length_cons]; omega
      rw [dif_pos h1, dif_pos h2]
      have e : i - k = (i - (k + 1)) + 1 := by omega
      simp only [List.get_eq_getElem, e, List.getElem_cons_succ]
    · rw [dif_neg h1]
      by_cases h3 : i = k
      · subst h3
        simp
      · have h2 : ¬ (k ≤ i ∧ i - k < (a :: l).length) := by
          simp only [List.length_cons]; omega
        rw [dif_neg h2, Function.update_noteq h3]

/-- Reading back a memory on which a list has been stored from offset `0`. -/
theorem readMem_applyStores (l : List Nat) (mem : Nat → Nat) (n : Nat) (hn : n ≤ l.length) :
    readMem (applyStores mem (List.enumFrom 0 l)) n = l.take n := by
  apply List.ext_getElem
  · simp [readMem, hn]
  · intro i h1 h2
    simp only [readMem, List.length_map, List.length_range] at h1
    simp only [readMem, List.getElem_map, List.getElem_range, applyStores_enumFrom,
      List.getElem_take]
    rw [dif_pos (by omega)]
    simp

set_option maxRecDepth 100000 in
theorem pszBase64Chars_std : pszBase64Chars false = stdAlphabet := by decide

theorem encChar_std (i : Nat) : encChar false i = stdSymbol i := by
  simp only [encChar, stdSymbol, pszBase64Chars_std]

/-- In standard mode the characters of `Encode` are the RFC 4648 text. -/
theorem encodeChars_std (B : List Nat) (hB : IsBytes B) : encodeChars false B = rfc4648 B := by
  induction B using sextets.induct with
  | case1 b0 b1 b2 rest ih =>
    have h1 : b1 < 256 := hB b1 (by simp)
    have h2 : b2 < 256 := hB b2 (by simp)
    have hr : IsBytes rest := fun b hb => hB b (by simp [hb])
    rw [encodeChars_cons3, ih hr, group3_eq b0 b1 b2 h1 h2]
    simp only [rfc4648, and63, Nat.shiftRight_eq_div_pow, encChar_std]
    norm_num
  | case2 b0 b1 =>
    have h1 : b1 < 256 := hB b1 (by simp)
    simp only [encodeChars, sextets, group2_eq b0 b1 h1, rfc4648, and63,
      Nat.shiftRight_eq_div_pow, padCount, padChar]
    norm_num [encChar_std]
  | case3 b0 =>
    simp only [encodeChars, sextets, rfc4648, and63, Nat.shiftLeft_eq,
      Nat.shiftRight_eq_div_pow, padCount, padChar]
    norm_num [List.replicate, encChar_std]
  | case4 => simp [encodeChars, sextets, rfc4648, padCount]

theorem rfc4648_length (B : List Nat) : (rfc4648 B).length = (B.length + 2) / 3 * 4 := by
  induction B using rfc4648.induct with
  | case1 b0 b1 b2 rest ih =>
    simp only [rfc4648, List.length_cons, ih]
    omega
  | case2 b0 b1 => simp [rfc4648]
  | case3 b0 => simp [rfc4648]
  | case4 => simp [rfc4648]



/-! ## Decode: one character, one group, the flush -/

theorem Decode_eq_run (s : List Nat) (n : Nat) (p : Bool) (c : Nat) (url : Bool) :
    Decode s n p c url =
      { ok := (decodeRun url p (s.take n) ⟨1, if p then c else U32 - 1, 0, []⟩).1
        cub := ((if p then c else U32 - 1) + U32 -
          (decodeRun url p (s.take n) ⟨1, if p then c else U32 - 1, 0, []⟩).2.1) % U32
        stores := (decodeRun url p (s.take n) ⟨1, if p then c else U32 - 1, 0, []⟩).2.2 } :=
  rfl

theorem rgchInvBase64_le (i : Nat) : rgchInvBase64.getD i (-1) ≤ 63 := by
  by_cases h : i < 80
  · interval_cases i <;> decide
  · rw [List.getD_eq_default _ _ (by simp [rgchInvBase64]; omega)]
    decide

theorem classify_sym_lt (url : Bool) (c v : Nat) (h : classify url c = CharClass.sym v) :
    v < 64 := by
  have key : ∀ x : Int, x ≤ 63 →
      (if x < 0 then (if x = -2 then CharClass.stop else CharClass.invalid)
        else CharClass.sym x.toNat) = CharClass.sym v → v < 64 := by
    intro x hx hv
    by_cases h0 : x < 0
    · rw [if_pos h0] at hv
      split at hv <;> cases hv
    · rw [if_neg h0] at hv
      cases hv
      omega
  unfold classify at h
  by_cases h0 : invIndex c ≥ nInvBaseLen
  · rw [if_pos h0] at h
    split at h <;> cases h
  · rw [if_neg h0] at h
    exact key _ (rgchInvBase64_le _) h

theorem classify_of_isSym (url : Bool) (c : Nat) (h : isSym url c = true) :
    classify url c = CharClass.sym (symValue url c) := by
  unfold isSym at h
  unfold symValue
  split at h
  · rename_i v hv; rw [hv]
  · simp at h

theorem symValue_lt (url : Bool) (c : Nat) (h : isSym url c = true) : symValue url c < 64 :=
  classify_sym_lt url c _ (classify_of_isSym url c h)

theorem acc_eq (u v : Nat) (hu : u < 2 ^ 26) (hv : v < 64) :
    ((u <<< 6) % U32) ||| v = u * 64 + v := by
  have h1 : u <<< 6 = u * 2 ^ 6 := Nat.shiftLeft_eq u 6
  have h2 : u * 2 ^ 6 < U32 := by unfold U32; omega
  rw [h1, Nat.mod_eq_of_lt h2, or_eq_add u v 6 (by omega)]
  norm_num

theorem decodeLoop_stop (url p : Bool) (c : Nat) (rest : List Nat) (st : DecodeState)
    (h : classify url c = CharClass.stop) : decodeLoop url p (c :: rest) st = (true, st) := by
  rw [decodeLoop, h]

theorem decodeLoop_invalid (url p : Bool) (c : Nat) (rest : List Nat) (st : DecodeState)
    (h : classify url c = CharClass.invalid) :
    decodeLoop url p (c :: rest) st = (false, st) := by
  rw [decodeLoop, h]

/-- A symbol that does not complete a group is shifted into the accumulator. -/
theorem decodeLoop_sym_acc (url p : Bool) (c v : Nat) (rest : List Nat)
    (u cub pub : Nat) (ss : List (Nat × Nat))
    (h : classify url c = CharClass.sym v) (hv : v < 64) (hu : u < 2 ^ 18) :
    decodeLoop url p (c :: rest) ⟨u, cub, pub, ss⟩ =
      decodeLoop url p rest ⟨u * 64 + v, cub, pub, ss⟩ := by
  rw [decodeLoop, h]
  simp only [acc_eq u v (by omega) hv]
  have hb : ¬ ((u * 64 + v) &&& (1 <<< 24) ≠ 0) := by
    rw [bit24]; omega
  rw [if_neg hb]

/-- The fourth symbol of a group, with room for three bytes: the bytes are stored and
the accumulator starts again. -/
theorem decodeLoop_sym_flush (url p : Bool) (c v : Nat) (rest : List Nat)
    (u cub pub : Nat) (ss : List (Nat × Nat))
    (h : classify url c = CharClass.sym v) (hv : v < 64) (hu : 2 ^ 18 ≤ u ∧ u < 2 ^ 19)
    (hc : 3 ≤ cub) :
    decodeLoop url p (c :: rest) ⟨u, cub, pub, ss⟩ =
      decodeLoop url p rest
        ⟨1, cub - 3, if p then pub + 3 else pub,
          if p then ss ++ [(pub, (u * 64 + v) / 65536 % 256),
            (pub + 1, (u * 64 + v) / 256 % 256), (pub + 2, (u * 64 + v) % 256)] else ss⟩ := by
  rw [decodeLoop, h]
  simp only [acc_eq u v (by omega) hv]
  have hb : (u * 64 + v) &&& (1 <<< 24) ≠ 0 := by
    rw [bit24]; omega
  have hc3 : ¬ cub < 3 := by omega
  rw [if_pos hb, if_neg hc3]
  simp only [Nat.shiftRight_eq_div_pow]

/-- The fourth symbol of a group, without room for three bytes: the scan stops with the
group in the accumulator. -/
theorem decodeLoop_sym_full (url p : Bool) (c v : Nat) (rest : List Nat)
    (u cub pub : Nat) (ss : List (Nat × Nat))
    (h : classify url c = CharClass.sym v) (hv : v < 64) (hu : 2 ^ 18 ≤ u ∧ u < 2 ^ 19)
    (hc : cub < 3) :
    decodeLoop url p (c :: rest) ⟨u, cub, pub, ss⟩ = (true, ⟨u * 64 + v, cub, pub, ss⟩) := by
  rw [decodeLoop, h]
  simp only [acc_eq u v (by omega) hv]
  have hb : (u * 64 + v) &&& (1 <<< 24) ≠ 0 := by
    rw [bit24]; omega
  rw [if_pos hb, if_pos hc]

/-- The loop of lines 228-243 stores the bytes of `tailBytes` while capacity remains, and
fails when it runs out. -/
theorem tailWrite_eq (p : Bool) (n : Nat) : ∀ (u cub pub : Nat) (ss : List (Nat × Nat)),
    (tailWrite p n ⟨u, cub, pub, ss⟩).1 = decide (n ≤ cub) ∧
    (tailWrite p n ⟨u, cub, pub, ss⟩).2.cub = cub - min n cub ∧
    (tailWrite p n ⟨u, cub, pub, ss⟩).2.stores =
      if p then ss ++ List.enumFrom pub ((tailBytes n u).take cub) else ss := by
  induction n with
  | zero => intro u cub pub ss; cases p <;> simp [tailWrite, tailBytes]
  | succ n ih =>
    intro u cub pub ss
    rw [tailWrite]
    by_cases h0 : cub = 0
    · subst h0
      cases p <;> simp
    · simp only [if_neg h0]
      obtain ⟨h1, h2, h3⟩ := ih ((u <<< 8) % U32) (cub - 1)
        (if p then pub + 1 else pub)
        (if p then ss ++ [(pub, (u >>> 16) % 256)] else ss)
      rw [h1, h2, h3]
      refine ⟨?_, ?_, ?_⟩
      · simp only [decide_eq_decide]; omega
      · omega
      · cases p
        · simp
        · obtain ⟨k, hk⟩ : ∃ k, cub = k + 1 := ⟨cub - 1, by omega⟩
          subst hk
          simp [tailBytes, List.enumFrom_cons]

theorem shl6_eq (u : Nat) (h : u < 2 ^ 26) : (u <<< 6) % U32 = u * 64 := by
  have h1 : u <<< 6 = u * 2 ^ 6 := Nat.shiftLeft_eq u 6
  have h2 : u * 2 ^ 6 < U32 := by unfold U32; omega
  rw [h1, Nat.mod_eq_of_lt h2]
  norm_num

theorem one_shl_24 : (1 <<< 24 : Nat) = 16777216 := by decide

theorem one_shl_6 : (1 <<< 6 : Nat) = 64 := by decide

theorem tailShift_one (u : Nat) (h : 64 ≤ u ∧ u < 128) :
    tailShift 4 u 3 = (u * 262144, 0) := by
  have e1 := shl6_eq u (by omega)
  have e2 := shl6_eq (u * 64) (by omega)
  have e3 := shl6_eq (u * 64 * 64) (by omega)
  have c1 : u < 16777216 := by omega
  have c2 : u * 64 < 16777216 := by omega
  have c3 : u * 64 * 64 < 16777216 := by omega
  have c4 : ¬ u * 64 * 64 * 64 < 16777216 := by omega
  simp only [tailShift, one_shl_24, e1, e2, e3, if_pos c1, if_pos c2, if_pos c3, if_neg c4]
  refine Prod.ext ?_ ?_
  · show u * 64 * 64 * 64 = u * 262144
    omega
  · rfl

theorem tailShift_two (u : Nat) (h : 4096 ≤ u ∧ u < 8192) :
    tailShift 4 u 3 = (u * 4096, 1) := by
  have e1 := shl6_eq u (by omega)
  have e2 := shl6_eq (u * 64) (by omega)
  have c1 : u < 16777216 := by omega
  have c2 : u * 64 < 16777216 := by omega
  have c3 : ¬ u * 64 * 64 < 16777216 := by omega
  simp only [tailShift, one_shl_24, e1, e2, if_pos c1, if_pos c2, if_neg c3]
  refine Prod.ext ?_ ?_
  · show u * 64 * 64 = u * 4096
    omega
  · rfl

theorem tailShift_three (u : Nat) (h : 262144 ≤ u ∧ u < 524288) :
    tailShift 4 u 3 = (u * 64, 2) := by
  have e1 := shl6_eq u (by omega)
  have c1 : u < 16777216 := by omega
  have c2 : ¬ u * 64 < 16777216 := by omega
  simp only [tailShift, one_shl_24, e1, if_pos c1, if_neg c2]
  rfl

theorem tailShift_four (u : Nat) (h : 16777216 ≤ u) : tailShift 4 u 3 = (u, 3) := by
  have c1 : ¬ u < 16777216 := by omega
  simp only [tailShift, one_shl_24, if_neg c1]

/-- The loop of lines 221-225 always ends within the bound that `decodeTail` gives it:
from an accumulator that holds data it leaves one with bit 24 or above set. -/
theorem tailShift_done (u : Nat) (n : Int) (h : 64 ≤ u) (hu : u < U32) :
    16777216 ≤ (tailShift 4 u n).1 := by
  unfold U32 at hu
  simp only [tailShift, one_shl_24]
  by_cases c1 : u < 16777216
  · have e1 := shl6_eq u (by omega)
    rw [if_pos c1, e1]
    by_cases c2 : u * 64 < 16777216
    · have e2 := shl6_eq (u * 64) (by omega)
      rw [if_pos c2, e2]
      by_cases c3 : u * 64 * 64 < 16777216
      · have e3 := shl6_eq (u * 64 * 64) (by omega)
        rw [if_pos c3, e3]
        have c4 : ¬ u * 64 * 64 * 64 < 16777216 := by omega
        rw [if_neg c4]
        omega
      · rw [if_neg c3]; omega
    · rw [if_neg c2]; omega
  · rw [if_neg c1]; omega

/-- The bytes that the accumulator owes when the scan ends, by the number of symbols it
holds (the sentinel bit is at position 0, 6, 12, 18 or 24). -/
theorem decodeTail_eq (p : Bool) (u cub pub : Nat) (ss : List (Nat × Nat))
    (hu : u < 128 ∨ (4096 ≤ u ∧ u < 8192) ∨ (262144 ≤ u ∧ u < 524288) ∨
      (16777216 ≤ u ∧ u < 33554432)) :
    (decodeTail p ⟨u, cub, pub, ss⟩).1 = decide ((pendingBytes u).length ≤ cub) ∧
    (decodeTail p ⟨u, cub, pub, ss⟩).2.cub = cub - min (pendingBytes u).length cub ∧
    (decodeTail p ⟨u, cub, pub, ss⟩).2.stores =
      if p then ss ++ List.enumFrom pub ((pendingBytes u).take cub) else ss := by
  unfold decodeTail
  simp only [one_shl_6]
  by_cases h64 : u ≥ 64
  · rw [if_pos h64]
    rcases hu with h | h | h | h
    · rw [tailShift_one u ⟨h64, h⟩]
      have hb : tailBytes (0 : Int).toNat (u * 262144) = pendingBytes u := by
        have c : u < 4096 := by omega
        simp [tailBytes, pendingBytes, c]
      have := tailWrite_eq p (0 : Int).toNat (u * 262144) cub pub ss
      rw [hb] at this
      simpa [pendingBytes, show u < 4096 by omega] using this
    · rw [tailShift_two u h]
      have hb : tailBytes (1 : Int).toNat (u * 4096) = pendingBytes u := by
        have c1 : ¬ u < 4096 := by omega
        have c2 : u < 262144 := by omega
        simp only [pendingBytes, if_neg c1, if_pos c2, Int.toNat_one, tailBytes,
          Nat.shiftRight_eq_div_pow]
        have a1 : u * 4096 / 2 ^ 16 % 256 = u / 16 % 256 := by omega
        rw [a1]
      have := tailWrite_eq p (1 : Int).toNat (u * 4096) cub pub ss
      rw [hb] at this
      simpa [pendingBytes, show ¬ u < 4096 by omega, show u < 262144 by omega] using this
    · rw [tailShift_three u h]
      have hb : tailBytes (2 : Int).toNat (u * 64) = pendingBytes u := by
        have c1 : ¬ u < 4096 := by omega
        have c2 : ¬ u < 262144 := by omega
        have c3 : u < 16777216 := by omega
        have e : (2 : Int).toNat = 2 := rfl
        simp only [pendingBytes, if_neg c1, if_neg c2, if_pos c3, e, tailBytes,
          Nat.shiftRight_eq_div_pow, Nat.shiftLeft_eq, U32]
        have a1 : u * 64 / 2 ^ 16 % 256 = u / 1024 % 256 := by omega
        have a2 : u * 64 * 2 ^ 8 % 2 ^ 32 / 2 ^ 16 % 256 = u / 4 % 256 := by omega
        rw [a1, a2]
      have := tailWrite_eq p (2 : Int).toNat (u * 64) cub pub ss
      rw [hb] at this
      simpa [pendingBytes, show ¬ u < 4096 by omega, show ¬ u < 262144 by omega,
        show u < 16777216 by omega] using this
    · rw [tailShift_four u h.1]
      have hb : tailBytes (3 : Int).toNat u = pendingBytes u := by
        have c1 : ¬ u < 4096 := by omega
        have c2 : ¬ u < 262144 := by omega
        have c3 : ¬ u < 16777216 := by omega
        have e : (3 : Int).toNat = 3 := rfl
        simp only [pendingBytes, if_neg c1, if_neg c2, if_neg c3, e, tailBytes,
          Nat.shiftRight_eq_div_pow, Nat.shiftLeft_eq, U32]
        have a2 : u * 2 ^ 8 % 2 ^ 32 / 2 ^ 16 % 256 = u / 256 % 256 := by omega
        have a3 : u * 2 ^ 8 % 2 ^ 32 * 2 ^ 8 % 2 ^ 32 / 2 ^ 16 % 256 = u % 256 := by omega
        rw [a2, a3]
      have := tailWrite_eq p (3 : Int).toNat u cub pub ss
      rw [hb] at this
      simpa [pendingBytes, show ¬ u < 4096 by omega, show ¬ u < 262144 by omega,
        show ¬ u < 16777216 by omega] using this
  · rw [if_neg h64]
    have c : u < 4096 := by omega
    cases p <;> simp [pendingBytes, c]

/-! ## Decode: a run of symbols -/

theorem decodeLoop_end (url p : Bool) (tl : List Nat) (st : DecodeState)
    (h : EndsScan url tl) : decodeLoop url p tl st = (true, st) := by
  rcases h with h | ⟨c, r, h, hc⟩
  · subst h; rw [decodeLoop]
  · subst h; exact decodeLoop_stop url p c r st hc

/-- Four symbols from an empty accumulator, with room for three bytes. -/
theorem decodeLoop_group_flush (url p : Bool) (c0 c1 c2 c3 : Nat) (rest : List Nat)
    (cub pub : Nat) (ss : List (Nat × Nat))
    (h0 : isSym url c0 = true) (h1 : isSym url c1 = true) (h2 : isSym url c2 = true)
    (h3 : isSym url c3 = true) (hc : 3 ≤ cub) :
    decodeLoop url p (c0 :: c1 :: c2 :: c3 :: rest) ⟨1, cub, pub, ss⟩ =
      decodeLoop url p rest
        ⟨1, cub - 3, if p then pub + 3 else pub,
          if p then ss ++ [(pub, symValue url c0 * 4 + symValue url c1 / 16),
            (pub + 1, symValue url c1 % 16 * 16 + symValue url c2 / 4),
            (pub + 2, symValue url c2 % 4 * 64 + symValue url c3)] else ss⟩ := by
  have b0 := symValue_lt url c0 h0
  have b1 := symValue_lt url c1 h1
  have b2 := symValue_lt url c2 h2
  have b3 := symValue_lt url c3 h3
  rw [decodeLoop_sym_acc url p c0 _ _ 1 cub pub ss (classify_of_isSym url c0 h0) b0 (by omega),
    decodeLoop_sym_acc url p c1 _ _ _ cub pub ss (classify_of_isSym url c1 h1) b1 (by omega),
    decodeLoop_sym_acc url p c2 _ _ _ cub pub ss (classify_of_isSym url c2 h2) b2 (by omega),
    decodeLoop_sym_flush url p c3 _ _ _ cub pub ss (classify_of_isSym url c3 h3) b3
      (by omega) hc]
  have a0 : (((1 * 64 + symValue url c0) * 64 + symValue url c1) * 64 + symValue url c2) * 64 +
      symValue url c3 =
      16777216 + symValue url c0 * 262144 + symValue url c1 * 4096 + symValue url c2 * 64 +
        symValue url c3 := by omega
  rw [a0]
  have a1 : (16777216 + symValue url c0 * 262144 + symValue url c1 * 4096 +
      symValue url c2 * 64 + symValue url c3) / 65536 % 256 =
      symValue url c0 * 4 + symValue url c1 / 16 := by omega
  have a2 : (16777216 + symValue url c0 * 262144 + symValue url c1 * 4096 +
      symValue url c2 * 64 + symValue url c3) / 256 % 256 =
      symValue url c1 % 16 * 16 + symValue url c2 / 4 := by omega
  have a3 : (16777216 + symValue url c0 * 262144 + symValue url c1 * 4096 +
      symValue url c2 * 64 + symValue url c3) % 256 =
      symValue url c2 % 4 * 64 + symValue url c3 := by omega
  rw [a1, a2, a3]

/-- Four symbols from an empty accumulator, without room for three bytes. -/
theorem decodeLoop_group_full (url p : Bool) (c0 c1 c2 c3 : Nat) (rest : List Nat)
    (cub pub : Nat) (ss : List (Nat × Nat))
    (h0 : isSym url c0 = true) (h1 : isSym url c1 = true) (h2 : isSym url c2 = true)
    (h3 : isSym url c3 = true) (hc : cub < 3) :
    decodeLoop url p (c0 :: c1 :: c2 :: c3 :: rest) ⟨1, cub, pub, ss⟩ =
      (true, ⟨16777216 + symValue url c0 * 262144 + symValue url c1 * 4096 +
        symValue url c2 * 64 + symValue url c3, cub, pub, ss⟩) := by
  have b0 := symValue_lt url c0 h0
  have b1 := symValue_lt url c1 h1
  have b2 := symValue_lt url c2 h2
  have b3 := symValue_lt url c3 h3
  rw [decodeLoop_sym_acc url p c0 _ _ 1 cub pub ss (classify_of_isSym url c0 h0) b0 (by omega),
    decodeLoop_sym_acc url p c1 _ _ _ cub pub ss (classify_of_isSym url c1 h1) b1 (by omega),
    decodeLoop_sym_acc url p c2 _ _ _ cub pub ss (classify_of_isSym url c2 h2) b2 (by omega),
    decodeLoop_sym_full url p c3 _ _ _ cub pub ss (classify_of_isSym url c3 h3) b3
      (by omega) hc]
  have a0 : (((1 * 64 + symValue url c0) * 64 + symValue url c1) * 64 + symValue url c2) * 64 +
      symValue url c3 =
      16777216 + symValue url c0 * 262144 + symValue url c1 * 4096 + symValue url c2 * 64 +
        symValue url c3 := by omega
  rw [a0]

theorem decodedLen_add4 (n : Nat) : decodedLen (n + 4) = decodedLen n + 3 := by
  unfold decodedLen
  have h1 : (n + 4) / 4 = n / 4 + 1 := by omega
  have h2 : (n + 4) % 4 = n % 4 := by omega
  rw [h1, h2]
  omega

theorem decodeRun_of_scan (url p : Bool) (chars : List Nat) (st st1 : DecodeState)
    (h : decodeLoop url p chars st = (true, st1)) :
    decodeRun url p chars st =
      ((decodeTail p st1).1, (decodeTail p st1).2.cub, (decodeTail p st1).2.stores) := by
  unfold decodeRun
  rw [h]
  rfl

theorem decodeRun_of_failed (url p : Bool) (chars : List Nat) (st st1 : DecodeState)
    (h : decodeLoop url p chars st = (false, st1)) :
    decodeRun url p chars st = (false, st1.cub, st1.stores) := by
  unfold decodeRun
  rw [h]
  rfl

theorem pendingBytes_group (v0 v1 v2 v3 : Nat) (b0 : v0 < 64) (b1 : v1 < 64) (b2 : v2 < 64)
    (b3 : v3 < 64) :
    pendingBytes (16777216 + v0 * 262144 + v1 * 4096 + v2 * 64 + v3) =
      [v0 * 4 + v1 / 16, v1 % 16 * 16 + v2 / 4, v2 % 4 * 64 + v3] := by
  have c1 : ¬ 16777216 + v0 * 262144 + v1 * 4096 + v2 * 64 + v3 < 4096 := by omega
  have c2 : ¬ 16777216 + v0 * 262144 + v1 * 4096 + v2 * 64 + v3 < 262144 := by omega
  have c3 : ¬ 16777216 + v0 * 262144 + v1 * 4096 + v2 * 64 + v3 < 16777216 := by omega
  have a1 : (16777216 + v0 * 262144 + v1 * 4096 + v2 * 64 + v3) / 65536 % 256 =
      v0 * 4 + v1 / 16 := by omega
  have a2 : (16777216 + v0 * 262144 + v1 * 4096 + v2 * 64 + v3) / 256 % 256 =
      v1 % 16 * 16 + v2 / 4 := by omega
  have a3 : (16777216 + v0 * 262144 + v1 * 4096 + v2 * 64 + v3) % 256 =
      v2 % 4 * 64 + v3 := by omega
  rw [pendingBytes, if_neg c1, if_neg c2, if_neg c3, a1, a2, a3]

theorem pendingBytes_three (v0 v1 v2 : Nat) (b0 : v0 < 64) (b1 : v1 < 64) (b2 : v2 < 64) :
    pendingBytes (((1 * 64 + v0) * 64 + v1) * 64 + v2) =
      [v0 * 4 + v1 / 16, v1 % 16 * 16 + v2 / 4] := by
  have c1 : ¬ ((1 * 64 + v0) * 64 + v1) * 64 + v2 < 4096 := by omega
  have c2 : ¬ ((1 * 64 + v0) * 64 + v1) * 64 + v2 < 262144 := by omega
  have c3 : ((1 * 64 + v0) * 64 + v1) * 64 + v2 < 16777216 := by omega
  have a1 : (((1 * 64 + v0) * 64 + v1) * 64 + v2) / 1024 % 256 = v0 * 4 + v1 / 16 := by omega
  have a2 : (((1 * 64 + v0) * 64 + v1) * 64 + v2) / 4 % 256 = v1 % 16 * 16 + v2 / 4 := by
    omega
  rw [pendingBytes, if_neg c1, if_neg c2, if_pos c3, a1, a2]

theorem pendingBytes_two (v0 v1 : Nat) (b0 : v0 < 64) (b1 : v1 < 64) :
    pendingBytes ((1 * 64 + v0) * 64 + v1) = [v0 * 4 + v1 / 16] := by
  have c1 : ¬ (1 * 64 + v0) * 64 + v1 < 4096 := by omega
  have c2 : (1 * 64 + v0) * 64 + v1 < 262144 := by omega
  have a1 : ((1 * 64 + v0) * 64 + v1) / 16 % 256 = v0 * 4 + v1 / 16 := by omega
  rw [pendingBytes, if_neg c1, if_pos c2, a1]

theorem pendingBytes_one (v0 : Nat) (b0 : v0 < 64) : pendingBytes (1 * 64 + v0) = [] := by
  have c1 : 1 * 64 + v0 < 4096 := by omega
  rw [pendingBytes, if_pos c1]

/-- The scan and the flush on a run of symbols that the end of the input or a stop
character ends, from an empty accumulator: the bytes of `octets` are stored as far as the
capacity goes, and the call succeeds exactly when the capacity covers them all. -/
theorem decodeRun_syms (url p : Bool) (tl : List Nat) (ht : EndsScan url tl)
    (syms : List Nat) :
    (∀ c ∈ syms, isSym url c = true) → ∀ (cub pub : Nat) (ss : List (Nat × Nat)),
      decodeRun url p (syms ++ tl) ⟨1, cub, pub, ss⟩ =
        (decide (decodedLen syms.length ≤ cub), cub - min (decodedLen syms.length) cub,
          if p then ss ++ List.enumFrom pub ((octets (syms.map (symValue url))).take cub)
          else ss) := by
  induction syms using octets.induct with
  | case1 c0 c1 c2 c3 rest ih =>
    intro hs cub pub ss
    have h0 : isSym url c0 = true := hs c0 (by simp)
    have h1 : isSym url c1 = true := hs c1 (by simp)
    have h2 : isSym url c2 = true := hs c2 (by simp)
    have h3 : isSym url c3 = true := hs c3 (by simp)
    have hr : ∀ c ∈ rest, isSym url c = true := fun c hc => hs c (by simp [hc])
    simp only [List.cons_append, List.length_cons, decodedLen_add4, List.map_cons, octets]
    by_cases hc : 3 ≤ cub
    · have IH := ih hr (cub - 3) (if p then pub + 3 else pub)
        (if p then ss ++ [(pub, symValue url c0 * 4 + symValue url c1 / 16),
            (pub + 1, symValue url c1 % 16 * 16 + symValue url c2 / 4),
            (pub + 2, symValue url c2 % 4 * 64 + symValue url c3)] else ss)
      unfold decodeRun at IH ⊢
      rw [decodeLoop_group_flush url p c0 c1 c2 c3 _ cub pub ss h0 h1 h2 h3 hc, IH]
      obtain ⟨k, hk⟩ : ∃ k, cub = k + 3 := ⟨cub - 3, by omega⟩
      subst hk
      refine Prod.ext ?_ (Prod.ext ?_ ?_)
      · simp
      · simp only [Nat.add_sub_cancel]; omega
      · cases p <;> simp [List.enumFrom_cons]
    · have hc3 : cub < 3 := by omega
      rw [decodeRun_of_scan url p _ _ _
        (decodeLoop_group_full url p c0 c1 c2 c3 _ cub pub ss h0 h1 h2 h3 hc3)]
      have hu := pendingBytes_group _ _ _ _ (symValue_lt url c0 h0) (symValue_lt url c1 h1)
        (symValue_lt url c2 h2) (symValue_lt url c3 h3)
      obtain ⟨t1, t2, t3⟩ := decodeTail_eq p
        (16777216 + symValue url c0 * 262144 + symValue url c1 * 4096 +
          symValue url c2 * 64 + symValue url c3) cub pub ss
        (Or.inr (Or.inr (Or.inr (by
          have := symValue_lt url c0 h0
          have := symValue_lt url c1 h1
          have := symValue_lt url c2 h2
          have := symValue_lt url c3 h3
          omega))))
      rw [t1, t2, t3, hu]
      refine Prod.ext ?_ (Prod.ext ?_ ?_)
      · simp only [List.length_cons, List.length_nil, decide_eq_decide]; omega
      · simp only [List.length_cons, List.length_nil]; omega
      · interval_cases cub <;> simp
  | case2 c0 c1 c2 =>
    intro hs cub pub ss
    have h0 : isSym url c0 = true := hs c0 (by simp)
    have h1 : isSym url c1 = true := hs c1 (by simp)
    have h2 : isSym url c2 = true := hs c2 (by simp)
    have b0 := symValue_lt url c0 h0
    have b1 := symValue_lt url c1 h1
    have b2 := symValue_lt url c2 h2
    have hscan : decodeLoop url p ([c0, c1, c2] ++ tl) ⟨1, cub, pub, ss⟩ =
        (true, ⟨((1 * 64 + symValue url c0) * 64 + symValue url c1) * 64 + symValue url c2,
          cub, pub, ss⟩) := by
      simp only [List.cons_append, List.nil_append]
      rw [decodeLoop_sym_acc url p c0 _ _ 1 cub pub ss (classify_of_isSym url c0 h0) b0
          (by omega),
        decodeLoop_sym_acc url p c1 _ _ _ cub pub ss (classify_of_isSym url c1 h1) b1
          (by omega),
        decodeLoop_sym_acc url p c2 _ _ _ cub pub ss (classify_of_isSym url c2 h2) b2
          (by omega),
        decodeLoop_end url p tl _ ht]
    rw [decodeRun_of_scan url p _ _ _ hscan]
    obtain ⟨t1, t2, t3⟩ := decodeTail_eq p
      (((1 * 64 + symValue url c0) * 64 + symValue url c1) * 64 + symValue url c2) cub pub ss
      (Or.inr (Or.inr (Or.inl (by omega))))
    rw [t1, t2, t3, pendingBytes_three _ _ _ b0 b1 b2]
    simp [decodedLen, octets]
  | case3 c0 c1 =>
    intro hs cub pub ss
    have h0 : isSym url c0 = true := hs c0 (by simp)
    have h1 : isSym url c1 = true := hs c1 (by simp)
    have b0 := symValue_lt url c0 h0
    have b1 := symValue_lt url c1 h1
    have hscan : decodeLoop url p ([c0, c1] ++ tl) ⟨1, cub, pub, ss⟩ =
        (true, ⟨(1 * 64 + symValue url c0) * 64 + symValue url c1, cub, pub, ss⟩) := by
      simp only [List.cons_append, List.nil_append]
      rw [decodeLoop_sym_acc url p c0 _ _ 1 cub pub ss (classify_of_isSym url c0 h0) b0
          (by omega),
        decodeLoop_sym_acc url p c1 _ _ _ cub pub ss (classify_of_isSym url c1 h1) b1
          (by omega),
        decodeLoop_end url p tl _ ht]
    rw [decodeRun_of_scan url p _ _ _ hscan]
    obtain ⟨t1, t2, t3⟩ := decodeTail_eq p
      ((1 * 64 + symValue url c0) * 64 + symValue url c1) cub pub ss
      (Or.inr (Or.inl (by omega)))
    rw [t1, t2, t3, pendingBytes_two _ _ b0 b1]
    simp [decodedLen, octets]
  | case4 c0 =>
    intro hs cub pub ss
    have h0 : isSym url c0 = true := hs c0 (by simp)
    have b0 := symValue_lt url c0 h0
    have hscan : decodeLoop url p ([c0] ++ tl) ⟨1, cub, pub, ss⟩ =
        (true, ⟨1 * 64 + symValue url c0, cub, pub, ss⟩) := by
      simp only [List.cons_append, List.nil_append]
      rw [decodeLoop_sym_acc url p c0 _ _ 1 cub pub ss (classify_of_isSym url c0 h0) b0
          (by omega),
        decodeLoop_end url p tl _ ht]
    rw [decodeRun_of_scan url p _ _ _ hscan]
    obtain ⟨t1, t2, t3⟩ := decodeTail_eq p (1 * 64 + symValue url c0) cub pub ss
      (Or.inl (by omega))
    rw [t1, t2, t3, pendingBytes_one _ b0]
    cases p <;> simp [decodedLen, octets]
  | case5 =>
    intro _ cub pub ss
    rw [List.nil_append, decodeRun_of_scan url p _ _ _ (decodeLoop_end url p tl _ ht)]
    obtain ⟨t1, t2, t3⟩ := decodeTail_eq p 1 cub pub ss (Or.inl (by omega))
    rw [t1, t2, t3]
    cases p <;> simp [decodedLen, octets, pendingBytes]

/-- An invalid character after a run of symbols, from an empty accumulator: the call
fails. -/
theorem decodeRun_invalid (url p : Bool) (x : Nat) (rest : List Nat)
    (hx : classify url x = CharClass.invalid) (syms : List Nat) :
    (∀ c ∈ syms, isSym url c = true) → ∀ (cub pub : Nat) (ss : List (Nat × Nat)),
      (decodeRun url p (syms ++ x :: rest) ⟨1, cub, pub, ss⟩).1 = false := by
  induction syms using octets.induct with
  | case1 c0 c1 c2 c3 more ih =>
    intro hs cub pub ss
    have h0 : isSym url c0 = true := hs c0 (by simp)
    have h1 : isSym url c1 = true := hs c1 (by simp)
    have h2 : isSym url c2 = true := hs c2 (by simp)
    have h3 : isSym url c3 = true := hs c3 (by simp)
    have hr : ∀ c ∈ more, isSym url c = true := fun c hc => hs c (by simp [hc])
    simp only [List.cons_append]
    by_cases hc : 3 ≤ cub
    · have IH := ih hr (cub - 3) (if p then pub + 3 else pub)
        (if p then ss ++ [(pub, symValue url c0 * 4 + symValue url c1 / 16),
            (pub + 1, symValue url c1 % 16 * 16 + symValue url c2 / 4),
            (pub + 2, symValue url c2 % 4 * 64 + symValue url c3)] else ss)
      unfold decodeRun at IH ⊢
      rw [decodeLoop_group_flush url p c0 c1 c2 c3 _ cub pub ss h0 h1 h2 h3 hc]
      exact IH
    · have hc3 : cub < 3 := by omega
      rw [decodeRun_of_scan url p _ _ _
        (decodeLoop_group_full url p c0 c1 c2 c3 _ cub pub ss h0 h1 h2 h3 hc3)]
      have hu := pendingBytes_group _ _ _ _ (symValue_lt url c0 h0) (symValue_lt url c1 h1)
        (symValue_lt url c2 h2) (symValue_lt url c3 h3)
      obtain ⟨t1, -, -⟩ := decodeTail_eq p
        (16777216 + symValue url c0 * 262144 + symValue url c1 * 4096 +
          symValue url c2 * 64 + symValue url c3) cub pub ss
        (Or.inr (Or.inr (Or.inr (by
          have := symValue_lt url c0 h0
          have := symValue_lt url c1 h1
          have := symValue_lt url c2 h2
          have := symValue_lt url c3 h3
          omega))))
      rw [t1, hu]
      simp only [List.length_cons, List.length_nil, decide_eq_false_iff_not]
      omega
  | case2 c0 c1 c2 =>
    intro hs cub pub ss
    have h0 : isSym url c0 = true := hs c0 (by simp)
    have h1 : isSym url c1 = true := hs c1 (by simp)
    have h2 : isSym url c2 = true := hs c2 (by simp)
    have b0 := symValue_lt url c0 h0
    have b1 := symValue_lt url c1 h1
    have b2 := symValue_lt url c2 h2
    have hscan : decodeLoop url p ([c0, c1, c2] ++ x :: rest) ⟨1, cub, pub, ss⟩ =
        (false, ⟨((1 * 64 + symValue url c0) * 64 + symValue url c1) * 64 + symValue url c2,
          cub, pub, ss⟩) := by
      simp only [List.cons_append, List.nil_append]
      rw [decodeLoop_sym_acc url p c0 _ _ 1 cub pub ss (classify_of_isSym url c0 h0) b0
          (by omega),
        decodeLoop_sym_acc url p c1 _ _ _ cub pub ss (classify_of_isSym url c1 h1) b1
          (by omega),
        decodeLoop_sym_acc url p c2 _ _ _ cub pub ss (classify_of_isSym url c2 h2) b2
          (by omega),
        decodeLoop_invalid url p x rest _ hx]
    rw [decodeRun_of_failed url p _ _ _ hscan]
  | case3 c0 c1 =>
    intro hs cub pub ss
    have h0 : isSym url c0 = true := hs c0 (by simp)
    have h1 : isSym url c1 = true := hs c1 (by simp)
    have b0 := symValue_lt url c0 h0
    have b1 := symValue_lt url c1 h1
    have hscan : decodeLoop url p ([c0, c1] ++ x :: rest) ⟨1, cub, pub, ss⟩ =
        (false, ⟨(1 * 64 + symValue url c0) * 64 + symValue url c1, cub, pub, ss⟩) := by
      simp only [List.cons_append, List.nil_append]
      rw [decodeLoop_sym_acc url p c0 _ _ 1 cub pub ss (classify_of_isSym url c0 h0) b0
          (by omega),
        decodeLoop_sym_acc url p c1 _ _ _ cub pub ss (classify_of_isSym url c1 h1) b1
          (by omega),
        decodeLoop_invalid url p x rest _ hx]
    rw [decodeRun_of_failed url p _ _ _ hscan]
  | case4 c0 =>
    intro hs cub pub ss
    have h0 : isSym url c0 = true := hs c0 (by simp)
    have b0 := symValue_lt url c0 h0
    have hscan : decodeLoop url p ([c0] ++ x :: rest) ⟨1, cub, pub, ss⟩ =
        (false, ⟨1 * 64 + symValue url c0, cub, pub, ss⟩) := by
      simp only [List.cons_append, List.nil_append]
      rw [decodeLoop_sym_acc url p c0 _ _ 1 cub pub ss (classify_of_isSym url c0 h0) b0
          (by omega),
        decodeLoop_invalid url p x rest _ hx]
    rw [decodeRun_of_failed url p _ _ _ hscan]
  | case5 =>
    intro _ cub pub ss
    rw [List.nil_append, decodeRun_of_failed url p _ _ _ (decodeLoop_invalid url p x rest _ hx)]

/-- The scan does not look past a character on which it breaks. -/
theorem decodeLoop_append_stop (url p : Bool) (x : Nat) (b : List Nat)
    (hx : classify url x = CharClass.stop) (a : List Nat) :
    ∀ st, decodeLoop url p (a ++ x :: b) st = decodeLoop url p a st := by
  induction a with
  | nil =>
    intro st
    rw [List.nil_append, decodeLoop_stop url p x b st hx, decodeLoop]
  | cons c a ih =>
    intro st
    rw [List.cons_append, decodeLoop, decodeLoop]
    split
    · rfl
    · rfl
    · simp only [ih]

/-! ## Stop characters, alphabets and the table of `Decode` -/

theorem classify_stopChar (url : Bool) (x : Nat) (h : stopChar x = true) :
    classify url x = CharClass.stop := by
  simp only [stopChar, Bool.or_eq_true, beq_iff_eq] at h
  rcases h with h | h <;> subst h <;> cases url <;> decide

set_option maxRecDepth 100000 in
theorem classify_byte_table : ∀ url : Bool, ∀ x : Fin 256,
    (classify url x.val = CharClass.stop ↔ stopChar x.val = true) ∧
    (isSym url x.val = true ↔ accepted url x.val = true) := by
  decide

theorem classify_stop_iff (url : Bool) (x : Nat) (hx : x < 256) :
    classify url x = CharClass.stop ↔ stopChar x = true :=
  (classify_byte_table url ⟨x, hx⟩).1

theorem isSym_iff_accepted (url : Bool) (x : Nat) (hx : x < 256) :
    isSym url x = true ↔ accepted url x = true :=
  (classify_byte_table url ⟨x, hx⟩).2

set_option maxRecDepth 100000 in
theorem classify_alphabet : ∀ url : Bool, ∀ i : Fin 64,
    classify url ((alphabet url).getD i.val 0) = CharClass.sym i.val ∧
    (alphabet url).indexOf ((alphabet url).getD i.val 0) = i.val ∧
    encChar url i.val = (alphabet url).getD i.val 0 := by
  decide

set_option maxRecDepth 100000 in
theorem classify_mem_alphabet : ∀ url : Bool, ∀ ch ∈ alphabet url,
    classify url ch = CharClass.sym ((alphabet url).indexOf ch) := by
  decide

theorem isSym_of_mem_alphabet (url : Bool) (ch : Nat) (h : ch ∈ alphabet url) :
    isSym url ch = true := by
  unfold isSym
  rw [classify_mem_alphabet url ch h]

theorem symValue_of_mem_alphabet (url : Bool) (ch : Nat) (h : ch ∈ alphabet url) :
    symValue url ch = (alphabet url).indexOf ch := by
  unfold symValue
  rw [classify_mem_alphabet url ch h]

theorem dropWhile_head (q : Nat → Bool) (l : List Nat) :
    l.dropWhile q = [] ∨ ∃ x b, l.dropWhile q = x :: b ∧ q x = false := by
  induction l with
  | nil => exact Or.inl rfl
  | cons a l ih =>
    by_cases h : q a = true
    · rw [List.dropWhile_cons_of_pos h]; exact ih
    · rw [List.dropWhile_cons_of_neg h]
      exact Or.inr ⟨a, l, rfl, by simpa using h⟩

/-- The declared window is the scanned characters followed by nothing or by a stop
character and what follows it. -/
theorem window_split (url : Bool) (s : List Nat) (n : Nat) :
    ∃ tl, s.take n = scanned s n ++ tl ∧ EndsScan url tl := by
  refine ⟨(s.take n).dropWhile (fun c => !stopChar c), ?_, ?_⟩
  · exact (List.takeWhile_append_dropWhile _ _).symm
  · rcases dropWhile_head (fun c => !stopChar c) (s.take n) with h | ⟨x, b, h, hx⟩
    · exact Or.inl h
    · refine Or.inr ⟨x, b, h, classify_stopChar url x ?_⟩
      simpa using hx

theorem octets_length (vs : List Nat) : (octets vs).length = decodedLen vs.length := by
  induction vs using octets.induct with
  | case1 v0 v1 v2 v3 rest ih =>
    simp only [octets, List.length_cons, ih, decodedLen_add4]
  | case2 v0 v1 v2 => simp [octets, decodedLen]
  | case3 v0 v1 => simp [octets, decodedLen]
  | case4 v0 => simp [octets, decodedLen]
  | case5 => simp [octets, decodedLen]

/-- The bytes of `octets` are the complete bytes of the bit string of the values. -/
theorem bytesOfBits_bits6 (vs : List Nat) :
    (∀ v ∈ vs, v < 64) → bytesOfBits (vs.flatMap bits6) = octets vs := by
  induction vs using octets.induct with
  | case1 v0 v1 v2 v3 rest ih =>
    intro h
    have b0 : v0 < 64 := h v0 (by simp)
    have b1 : v1 < 64 := h v1 (by simp)
    have b2 : v2 < 64 := h v2 (by simp)
    have b3 : v3 < 64 := h v3 (by simp)
    have hr : ∀ v ∈ rest, v < 64 := fun v hv => h v (by simp [hv])
    rw [List.flatMap_cons, List.flatMap_cons, List.flatMap_cons, List.flatMap_cons]
    simp only [bits6, List.cons_append, List.nil_append, bytesOfBits, octets, List.append_eq]
    rw [ih hr]
    congr 1
    · omega
    · congr 1
      · omega
      · congr 1
        omega
  | case2 v0 v1 v2 =>
    intro h
    have b0 : v0 < 64 := h v0 (by simp)
    have b1 : v1 < 64 := h v1 (by simp)
    have b2 : v2 < 64 := h v2 (by simp)
    simp only [List.flatMap_cons, List.flatMap_nil, bits6, List.cons_append, List.nil_append,
      List.append_nil, bytesOfBits, octets]
    congr 1
    · omega
    · congr 1
      omega
  | case3 v0 v1 =>
    intro h
    have b0 : v0 < 64 := h v0 (by simp)
    have b1 : v1 < 64 := h v1 (by simp)
    simp only [List.flatMap_cons, List.flatMap_nil, bits6, List.cons_append, List.nil_append,
      List.append_nil, bytesOfBits, octets]
    congr 1
    omega
  | case4 v0 =>
    intro _
    simp [bits6, bytesOfBits, octets]
  | case5 =>
    intro _
    simp [bytesOfBits, octets]

/-- `Decode` with a present buffer on an input whose scanned characters are all taken
for symbols. -/
theorem Decode_syms (s : List Nat) (n c : Nat) (url : Bool) (hc : c < 2 ^ 32)
    (hs : ∀ ch ∈ scanned s n, isSym url ch = true) :
    Decode s n true c url =
      { ok := decide (decodedLen (scanned s n).length ≤ c)
        cub := min (decodedLen (scanned s n).length) c
        stores := List.enumFrom 0 ((octets ((scanned s n).map (symValue url))).take c) } := by
  obtain ⟨tl, h1, h2⟩ := window_split url s n
  rw [Decode_eq_run, h1]
  simp only [if_true]
  rw [decodeRun_syms url true tl h2 (scanned s n) hs c 0 []]
  simp only [if_true, List.nil_append, DecodeResult.mk.injEq, true_and, and_true]
  unfold U32
  omega

theorem decodeRun_append_stop (url p : Bool) (x : Nat) (b : List Nat)
    (hx : classify url x = CharClass.stop) (a : List Nat) (st : DecodeState) :
    decodeRun url p (a ++ x :: b) st = decodeRun url p a st := by
  unfold decodeRun
  rw [decodeLoop_append_stop url p x b hx a st]

theorem classify_invalid_of (url : Bool) (x : Nat) (h1 : isSym url x = false)
    (h2 : classify url x ≠ CharClass.stop) : classify url x = CharClass.invalid := by
  unfold isSym at h1
  cases h : classify url x with
  | sym v => rw [h] at h1; simp at h1
  | stop => exact absurd h h2
  | invalid => rfl

theorem takeWhile_append_end (q : Nat → Bool) (a b : List Nat)
    (ha : ∀ x ∈ a, q x = true) (hb : b = [] ∨ ∃ x r, b = x :: r ∧ q x = false) :
    (a ++ b).takeWhile q = a := by
  induction a with
  | nil =>
    rcases hb with hb | ⟨x, r, hb, hx⟩
    · subst hb; rfl
    · subst hb
      rw [List.nil_append, List.takeWhile_cons_of_neg (by simp [hx])]
  | cons c a ih =>
    rw [List.cons_append, List.takeWhile_cons_of_pos (ha c (by simp)),
      ih (fun x hx => ha x (by simp [hx]))]

set_option maxRecDepth 100000 in
theorem classify_encChar : ∀ url : Bool, ∀ i : Fin 64,
    classify url (encChar url i.val) = CharClass.sym i.val ∧
    stopChar (encChar url i.val) = false := by
  decide

theorem isSym_encChar (url : Bool) (v : Nat) (hv : v < 64) :
    isSym url (encChar url v) = true := by
  unfold isSym
  rw [(classify_encChar url ⟨v, hv⟩).1]

theorem symValue_encChar (url : Bool) (v : Nat) (hv : v < 64) :
    symValue url (encChar url v) = v := by
  unfold symValue
  rw [(classify_encChar url ⟨v, hv⟩).1]

theorem sextets_lt (B : List Nat) : ∀ v ∈ sextets B, v < 64 := by
  induction B using sextets.induct with
  | case1 b0 b1 b2 rest ih =>
    intro v hv
    simp only [sextets, List.mem_cons, and63] at hv
    rcases hv with h | h | h | h | h
    · omega
    · omega
    · omega
    · omega
    · exact ih v h
  | case2 b0 b1 =>
    intro v hv
    simp only [sextets, List.mem_cons, and63, List.mem_singleton, List.not_mem_nil,
      or_false] at hv
    omega
  | case3 b0 =>
    intro v hv
    simp only [sextets, List.mem_cons, and63, List.mem_singleton, List.not_mem_nil,
      or_false] at hv
    omega
  | case4 => intro v hv; simp [sextets] at hv

/-- Packing the 6-bit indices of a byte sequence gives the bytes back. -/
theorem octets_sextets (B : List Nat) : IsBytes B → octets (sextets B) = B := by
  induction B using sextets.induct with
  | case1 b0 b1 b2 rest ih =>
    intro hB
    have h0 : b0 < 256 := hB b0 (by simp)
    have h1 : b1 < 256 := hB b1 (by simp)
    have h2 : b2 < 256 := hB b2 (by simp)
    have hr : IsBytes rest := fun b hb => hB b (by simp [hb])
    simp only [sextets, group3_eq b0 b1 b2 h1 h2, and63, Nat.shiftRight_eq_div_pow, octets,
      ih hr]
    congr 1
    · omega
    · congr 1
      · omega
      · congr 1
        omega
  | case2 b0 b1 =>
    intro hB
    have h0 : b0 < 256 := hB b0 (by simp)
    have h1 : b1 < 256 := hB b1 (by simp)
    simp only [sextets, group2_eq b0 b1 h1, and63, Nat.shiftRight_eq_div_pow, octets]
    congr 1
    · omega
    · congr 1
      omega
  | case3 b0 =>
    intro hB
    have h0 : b0 < 256 := hB b0 (by simp)
    simp only [sextets, Nat.shiftLeft_eq, and63, Nat.shiftRight_eq_div_pow, octets]
    congr 1
    omega
  | case4 => intro _; rfl

theorem GetDecodeMaxOutput_eq (m : Nat) (h : m + 3 < 2 ^ 32) :
    GetDecodeMaxOutput m = (m + 3) / 4 * 3 + 1 := by
  have h2 : (m + 3) / 4 * 3 < 2 ^ 32 := by omega
  have h3 : (m + 3) / 4 * 3 + 1 < 2 ^ 32 := by omega
  unfold GetDecodeMaxOutput U32
  rw [Nat.mod_eq_of_lt h, Nat.mod_eq_of_lt h2, Nat.mod_eq_of_lt h3]

theorem stopChar_padChar (url : Bool) : stopChar (padChar url) = true := by
  cases url <;> decide

/-- The characters that `Decode` scans in the output of `Encode` are the symbols of the
6-bit indices. -/
theorem scanned_encodeChars (url : Bool) (B : List Nat) :
    scanned (encodeChars url B ++ [0]) ((B.length + 2) / 3 * 4) =
      (sextets B).map (encChar url) := by
  unfold scanned
  have hlen := encodeChars_length url B
  rw [← hlen, List.take_left']
  · unfold encodeChars
    apply takeWhile_append_end
    · intro x hx
      obtain ⟨v, hv, rfl⟩ := List.mem_map.mp hx
      rw [(classify_encChar url ⟨v, sextets_lt B v hv⟩).2]
      rfl
    · cases hk : padCount B.length with
      | zero => exact Or.inl rfl
      | succ k =>
        refine Or.inr ⟨padChar url, List.replicate k (padChar url), rfl, ?_⟩
        rw [stopChar_padChar]
        rfl
  · rfl

/-! ## Offsets of the stores -/

/-- The loop of `Encode` keeps `pch + cch` constant, and stores below `pch + cch + 1`. -/
theorem encodeLoop_stores_lt (url : Bool) (n K : Nat) (B : List Nat) :
    ∀ (pch cch : Nat) (ss : List (Nat × Nat)), pch + cch + 1 = K → (∀ st ∈ ss, st.1 < K) →
      ∀ st ∈ (encodeLoop url n B pch cch ss).stores, st.1 < K := by
  induction B using sextets.induct with
  | case1 b0 b1 b2 rest ih =>
    intro pch cch ss hK hss
    rw [encodeLoop]
    by_cases h4 : cch < 4
    · rw [if_pos h4]
      intro st hst
      simp only [encodeOutOfSpace, List.mem_append, List.mem_singleton] at hst
      rcases hst with h | h
      · exact hss st h
      · subst h; simp only; omega
    · rw [if_neg h4]
      apply ih (pch + 4) (cch - 4) _ (by omega)
      intro st hst
      simp only [List.mem_append, List.mem_cons, List.mem_singleton, List.not_mem_nil,
        or_false] at hst
      rcases hst with h | h | h | h | h
      · exact hss st h
      all_goals (subst h; simp only; omega)
  | case2 b0 b1 =>
    intro pch cch ss hK hss
    rw [encodeLoop]
    by_cases h4 : cch < 4
    · rw [if_pos h4]
      intro st hst
      simp only [encodeOutOfSpace, List.mem_append, List.mem_singleton] at hst
      rcases hst with h | h
      · exact hss st h
      · subst h; simp only; omega
    · rw [if_neg h4]
      intro st hst
      simp only [List.mem_append, List.mem_cons, List.mem_singleton, List.not_mem_nil,
        or_false] at hst
      rcases hst with h | h | h | h | h | h
      · exact hss st h
      all_goals (subst h; simp only; omega)
  | case3 b0 =>
    intro pch cch ss hK hss
    rw [encodeLoop]
    by_cases h4 : cch < 4
    · rw [if_pos h4]
      intro st hst
      simp only [encodeOutOfSpace, List.mem_append, List.mem_singleton] at hst
      rcases hst with h | h
      · exact hss st h
      · subst h; simp only; omega
    · rw [if_neg h4]
      intro st hst
      simp only [List.mem_append, List.mem_cons, List.mem_singleton, List.not_mem_nil,
        or_false] at hst
      rcases hst with h | h | h | h | h | h
      · exact hss st h
      all_goals (subst h; simp only; omega)
  | case4 =>
    intro pch cch ss hK hss
    rw [encodeLoop]
    intro st hst
    simp only [List.mem_append, List.mem_singleton] at hst
    rcases hst with h | h
    · exact hss st h
    · subst h; simp only; omega

/-- With a declared capacity of at least 1, every store of `Encode` is below the
capacity, on success and on failure. -/
theorem Encode_stores_lt (B : List Nat) (present : Bool) (c : Nat) (url : Bool)
    (hc : 1 ≤ c) : ∀ st ∈ (Encode B present c url).stores, st.1 < c := by
  unfold Encode
  cases present
  · intro st hst; simp at hst
  · have h0 : ¬ c = 0 := by omega
    simp only [Bool.not_true, Bool.false_eq_true, if_false, if_neg h0]
    exact encodeLoop_stores_lt url B.length c B 0 (c - 1) [] (by omega)
      (fun st hst => by simp at hst)

/-- The scan of `Decode` stores below `pub + cub`, which it keeps constant. -/
theorem decodeLoop_stores_lt (url p : Bool) (K : Nat) (chars : List Nat) :
    ∀ st : DecodeState, st.pub + st.cub ≤ K → (∀ x ∈ st.stores, x.1 < K) →
      (decodeLoop url p chars st).2.pub + (decodeLoop url p chars st).2.cub ≤ K ∧
      ∀ x ∈ (decodeLoop url p chars st).2.stores, x.1 < K := by
  induction chars with
  | nil => intro st h1 h2; rw [decodeLoop]; exact ⟨h1, h2⟩
  | cons c rest ih =>
    intro st h1 h2
    rw [decodeLoop]
    split
    · exact ⟨h1, h2⟩
    · exact ⟨h1, h2⟩
    · simp only
      split
      · split
        · exact ⟨h1, h2⟩
        · rename_i hcub
          apply ih
          · simp only; split <;> omega
          · simp only
            intro x hx
            split at hx
            · simp only [List.mem_append, List.mem_cons, List.mem_singleton,
                List.not_mem_nil, or_false] at hx
              rcases hx with h | h | h | h
              · exact h2 x h
              all_goals (subst h; simp only; omega)
            · exact h2 x hx
      · exact ih _ h1 h2

theorem tailWrite_stores_lt (p : Bool) (K : Nat) (n : Nat) :
    ∀ st : DecodeState, st.pub + st.cub ≤ K → (∀ x ∈ st.stores, x.1 < K) →
      ∀ x ∈ (tailWrite p n st).2.stores, x.1 < K := by
  induction n with
  | zero => intro st _ h2; rw [tailWrite]; exact h2
  | succ n ih =>
    intro st h1 h2
    rw [tailWrite]
    split
    · exact h2
    · rename_i hcub
      apply ih
      · simp only; split <;> omega
      · simp only
        intro x hx
        split at hx
        · simp only [List.mem_append, List.mem_singleton] at hx
          rcases hx with h | h
          · exact h2 x h
          · subst h; simp only; omega
        · exact h2 x hx

/-- Every store of `Decode` is below the declared capacity, whatever the input, the
capacity and the mode, on success and on failure. -/
theorem Decode_stores_lt (s : List Nat) (n c : Nat) (url : Bool) :
    ∀ x ∈ (Decode s n true c url).stores, x.1 < c := by
  unfold Decode
  simp only [if_true]
  obtain ⟨h1, h2⟩ := decodeLoop_stores_lt url true c (s.take n) ⟨1, c, 0, []⟩
    (by simp) (fun x hx => by simp at hx)
  split
  · unfold decodeTail
    split
    · exact tailWrite_stores_lt true c _ _ h1 h2
    · exact h2
  · exact h2

/-- Without an output buffer the scan of `Decode` stores nothing. -/
theorem decodeLoop_absent_stores (url : Bool) (chars : List Nat) :
    ∀ st : DecodeState, (decodeLoop url false chars st).2.stores = st.stores := by
  induction chars with
  | nil => intro st; rw [decodeLoop]
  | cons c rest ih =>
    intro st
    rw [decodeLoop]
    split
    · rfl
    · rfl
    · simp only
      split
      · split
        · rfl
        · rw [ih]; rfl
      · rw [ih]

/-! ## Claims about Encode -/

/-- Claim C2, as amended: for every byte sequence `B` of length `n` with
`4 * ceil(n / 3) + 1 < 2 ^ 32` and a present buffer of capacity at least
`GetEncodeMaxOutput(n)`, `Encode` with the standard alphabet returns true and its stores
are, from offset 0 and in order, the RFC 4648 text of `B` followed by a null terminator;
so the buffer then holds that text and the terminator. -/
theorem C2_encode_standard_is_rfc4648 (B : List Nat) (c : Nat) (hB : IsBytes B)
    (hn : (B.length + 2) / 3 * 4 + 1 < 2 ^ 32) (hc : GetEncodeMaxOutput B.length ≤ c) :
    (Encode B true c false).ok = true ∧
    (Encode B true c false).stores = List.enumFrom 0 (rfc4648 B ++ [0]) ∧
    ∀ mem : Nat → Nat,
      readMem (applyStores mem (Encode B true c false).stores) ((rfc4648 B).length + 1) =
        rfc4648 B ++ [0] := by
  rw [GetEncodeMaxOutput_eq _ hn] at hc
  rw [Encode_ok false B c hc, encodeChars_std B hB]
  refine ⟨rfl, rfl, fun mem => ?_⟩
  have h := readMem_applyStores (rfc4648 B ++ [0]) mem ((rfc4648 B).length + 1) (by simp)
  rw [h]
  exact List.take_of_length_le (by simp)

theorem C2_encode_standard_is_rfc4648_witness :
    (Encode [1, 2, 3, 4] true 9 false).ok = true ∧
    (Encode [1, 2, 3, 4] true 9 false).stores = List.enumFrom 0 (rfc4648 [1, 2, 3, 4] ++ [0]) ∧
    ∀ mem : Nat → Nat,
      readMem (applyStores mem (Encode [1, 2, 3, 4] true 9 false).stores)
        ((rfc4648 [1, 2, 3, 4]).length + 1) = rfc4648 [1, 2, 3, 4] ++ [0] :=
  C2_encode_standard_is_rfc4648 [1, 2, 3, 4] 9 (by decide) (by decide) (by decide)

/-- Claim C2 as stated fails where `GetEncodeMaxOutput` wraps around: for the
3221225470 zero bytes, `GetEncodeMaxOutput` is 1, and `Encode` into a buffer of capacity 1
returns false. -/
theorem C2_counterexample :
    IsBytes (List.replicate 3221225470 0) ∧
    (List.replicate 3221225470 0).length < 2 ^ 32 ∧
    GetEncodeMaxOutput (List.replicate 3221225470 0).length ≤ 1 ∧
    (Encode (List.replicate 3221225470 0) true 1 false).ok = false := by
  refine ⟨?_, ?_, ?_, ?_⟩
  · intro b hb
    rw [List.eq_of_mem_replicate hb]
    decide
  · rw [List.length_replicate]; decide
  · rw [List.length_replicate]; decide
  · refine (Encode_fail false _ 1 ?_).1
    rw [List.length_replicate]
    decide

/-- As compiled with `NDEBUG`: for an input of length `n` with
`4 * ceil(n / 3) + 1 < 2 ^ 32`, every declared capacity `c` of a present buffer and either
mode, `Encode` returns true exactly when `c >= GetEncodeMaxOutput(n)`, and when it
returns false it leaves `GetEncodeMaxOutput(n)` in the capacity field; in particular a
non-empty input with capacity 1 fails and reports `GetEncodeMaxOutput(n)`. -/
theorem Encode_succeeds_iff_capacity (B : List Nat)
    (hn : (B.length + 2) / 3 * 4 + 1 < 2 ^ 32) :
    (∀ (c : Nat) (url : Bool),
      ((Encode B true c url).ok = true ↔ GetEncodeMaxOutput B.length ≤ c) ∧
      ((Encode B true c url).ok = false →
        (Encode B true c url).cch = GetEncodeMaxOutput B.length)) ∧
    (B ≠ [] → ∀ url : Bool,
      (Encode B true 1 url).ok = false ∧
      (Encode B true 1 url).cch = GetEncodeMaxOutput B.length) := by
  constructor
  · intro c url
    rw [GetEncodeMaxOutput_eq _ hn]
    by_cases h : (B.length + 2) / 3 * 4 + 1 ≤ c
    · rw [Encode_ok url B c h]
      simp [h]
    · have hf := Encode_fail url B c (by omega)
      rw [hf.1, hf.2, GetEncodeMaxOutput_eq _ hn]
      simp [h]
  · intro hne url
    have hlen : 0 < B.length := List.length_pos.mpr hne
    exact Encode_fail url B 1 (by omega)

/-- Claim C6, as amended: for the 9-byte avatar id and a buffer of capacity
`GetEncodeMaxOutput(9)`, `Encode` produces the string `"lkbpmYoyhVM6"` with the standard
alphabet and with the URL-safe alphabet alike (three full groups, no padding). -/
theorem C6_encode_avatar_id (mem : Nat → Nat) (url : Bool) :
    cString (readMem (applyStores mem
      (Encode raw_aid true (GetEncodeMaxOutput 9) url).stores) (GetEncodeMaxOutput 9)) =
      codes "lkbpmYoyhVM6" := by
  have h : (Encode raw_aid true (GetEncodeMaxOutput 9) url).stores =
      List.enumFrom 0 (codes "lkbpmYoyhVM6" ++ [0]) := by
    cases url <;> decide
  have h13 : GetEncodeMaxOutput 9 = 13 := by decide
  rw [h, h13, readMem_applyStores _ mem 13 (by decide)]
  decide

/-- Claim C6 as stated fails: the string that standard `Encode` leaves for the avatar id
is not `"lkaYkzKFOg=="`. -/
theorem C6_counterexample :
    cString (readMem (applyStores (fun _ => 0)
      (Encode raw_aid true (GetEncodeMaxOutput 9) false).stores) (GetEncodeMaxOutput 9)) ≠
      codes "lkaYkzKFOg==" := by
  decide

/-- Claim C7, the code at a one-byte input: URL-safe `Encode` of the byte `0x66` into a
buffer of capacity 5 stores `"Zg"` and three nulls, so that two symbols precede the first
null, and leaves 4 in the capacity field; for the lengths 0 to 6 it leaves 0, 4, 4, 4, 8,
8, 8. -/
theorem C7_urlsafe_count_one_byte :
    Encode [0x66] true 5 true =
      { ok := true, cch := 4, stores := [(0, 90), (1, 103), (2, 0), (3, 0), (4, 0)] } ∧
    cString (readMem (applyStores (fun _ => 255) (Encode [0x66] true 5 true).stores) 5) =
      codes "Zg" ∧
    (List.range 7).map (fun n => (Encode (List.replicate n 0x66) true 9 true).cch) =
      [0, 4, 4, 4, 8, 8, 8] := by
  decide

/-- Claim C8: with a present buffer of capacity at least `GetEncodeMaxOutput(n)`, a
successful `Encode` with the standard alphabet leaves exactly `ceil(n / 3) * 4` in the
capacity field; and `Encode` is successful there whenever `4 * ceil(n / 3) + 1` fits in
32 bits. -/
theorem C8_encode_standard_count (B : List Nat) (c : Nat)
    (hc : GetEncodeMaxOutput B.length ≤ c) :
    ((Encode B true c false).ok = true →
      (Encode B true c false).cch = (B.length + 2) / 3 * 4) ∧
    ((B.length + 2) / 3 * 4 + 1 < 2 ^ 32 → (Encode B true c false).ok = true) := by
  constructor
  · intro hok
    by_cases h : (B.length + 2) / 3 * 4 + 1 ≤ c
    · rw [Encode_ok false B c h]
    · have hf := Encode_fail false B c (by omega)
      rw [hf.1] at hok
      exact absurd hok (by decide)
  · intro hn
    rw [GetEncodeMaxOutput_eq _ hn] at hc
    rw [Encode_ok false B c hc]

theorem C8_encode_standard_count_witness :
    ((Encode [1, 2, 3, 4] true 9 false).ok = true →
      (Encode [1, 2, 3, 4] true 9 false).cch = ([1, 2, 3, 4].length + 2) / 3 * 4) ∧
    (([1, 2, 3, 4].length + 2) / 3 * 4 + 1 < 2 ^ 32 →
      (Encode [1, 2, 3, 4] true 9 false).ok = true) :=
  C8_encode_standard_count [1, 2, 3, 4] 9 (by decide)


/-! ## Claims about Decode and the round trip -/

/-- Claim C1, round trip: for a byte sequence `B` of length `n` for which
`GetEncodeMaxOutput(n)` does not overflow 32 bits, and in either mode, `Encode` into a
present buffer of capacity `GetEncodeMaxOutput(n)` returns true and reports a count `m`;
`Decode` of that buffer with input length `m`, the same mode and a present buffer of
capacity `GetDecodeMaxOutput(m)` returns true, reports `n` and has stored exactly the
bytes of `B`, in order from offset 0. -/
theorem C1_round_trip (B : List Nat) (url : Bool) (mem : Nat → Nat) (hB : IsBytes B)
    (hn : (B.length + 2) / 3 * 4 + 1 < 2 ^ 32) :
    (Encode B true (GetEncodeMaxOutput B.length) url).ok = true ∧
    (Decode
      (readMem (applyStores mem (Encode B true (GetEncodeMaxOutput B.length) url).stores)
        (GetEncodeMaxOutput B.length))
      (Encode B true (GetEncodeMaxOutput B.length) url).cch true
      (GetDecodeMaxOutput (Encode B true (GetEncodeMaxOutput B.length) url).cch) url) =
      { ok := true, cub := B.length, stores := List.enumFrom 0 B } := by
  rw [GetEncodeMaxOutput_eq _ hn, Encode_ok url B _ (Nat.le_refl _)]
  refine ⟨rfl, ?_⟩
  simp only
  have hlen : (encodeChars url B ++ [0]).length = (B.length + 2) / 3 * 4 + 1 := by
    rw [List.length_append, encodeChars_length]; rfl
  rw [readMem_applyStores _ mem _ (by rw [hlen]), List.take_of_length_le (by rw [hlen])]
  have hm : (B.length + 2) / 3 * 4 + 3 < 2 ^ 32 := by omega
  have hcap : GetDecodeMaxOutput ((B.length + 2) / 3 * 4) = (B.length + 2) / 3 * 3 + 1 := by
    rw [GetDecodeMaxOutput_eq _ hm]; omega
  have hsc := scanned_encodeChars url B
  have hsym : ∀ ch ∈ scanned (encodeChars url B ++ [0]) ((B.length + 2) / 3 * 4),
      isSym url ch = true := by
    intro ch hch
    rw [hsc] at hch
    obtain ⟨v, hv, rfl⟩ := List.mem_map.mp hch
    exact isSym_encChar url v (sextets_lt B v hv)
  have hvals : ((sextets B).map (encChar url)).map (symValue url) = sextets B := by
    rw [List.map_map]
    conv_rhs => rw [← List.map_id (sextets B)]
    apply List.map_congr_left
    intro v hv
    exact symValue_encChar url v (sextets_lt B v hv)
  rw [Decode_syms _ _ _ url (by rw [hcap]; omega) hsym, hsc, hvals, octets_sextets B hB,
    List.length_map]
  have hL : decodedLen (sextets B).length = B.length := by
    rw [← octets_length, octets_sextets B hB]
  rw [hL, hcap, List.take_of_length_le (by omega)]
  simp only [DecodeResult.mk.injEq, decide_eq_true_eq, and_true]
  omega

theorem C1_round_trip_witness :
    (Encode [1, 2, 3, 4] true (GetEncodeMaxOutput [1, 2, 3, 4].length) true).ok = true ∧
    (Decode
      (readMem (applyStores (fun _ => 170)
        (Encode [1, 2, 3, 4] true (GetEncodeMaxOutput [1, 2, 3, 4].length) true).stores)
        (GetEncodeMaxOutput [1, 2, 3, 4].length))
      (Encode [1, 2, 3, 4] true (GetEncodeMaxOutput [1, 2, 3, 4].length) true).cch true
      (GetDecodeMaxOutput
        (Encode [1, 2, 3, 4] true (GetEncodeMaxOutput [1, 2, 3, 4].length) true).cch) true) =
      { ok := true, cub := [1, 2, 3, 4].length, stores := List.enumFrom 0 [1, 2, 3, 4] } :=
  C1_round_trip [1, 2, 3, 4] true (fun _ => 170) (by decide) (by decide)

/-- Claim C4, as amended: for an input `s` of bytes, a declared length `n` and a present
buffer of capacity `c`, `Decode` returns true if and only if (1) every character of `s`
before the first null or `'='` within the first `n` characters is a symbol of the
selected alphabet or, in URL-safe mode, `'+'` or `'/'`, and (2) `c` is at least the
decoded length `3 * floor(k / 4) + t` of the `k` characters before that stop. -/
theorem C4_decode_succeeds_iff (s : List Nat) (n c : Nat) (url : Bool) (hs : IsBytes s) :
    (Decode s n true c url).ok = true ↔
      (∀ ch ∈ scanned s n, accepted url ch = true) ∧ decodedLen (scanned s n).length ≤ c := by
  have hbyte : ∀ ch ∈ scanned s n, ch < 256 := fun ch hch =>
    hs ch (List.mem_of_mem_take (List.takeWhile_subset _ hch))
  obtain ⟨tl, h1, h2⟩ := window_split url s n
  rw [Decode_eq_run]
  simp only [if_true]
  by_cases hall : ∀ ch ∈ scanned s n, isSym url ch = true
  · rw [h1, decodeRun_syms url true tl h2 (scanned s n) hall c 0 []]
    have hacc : ∀ ch ∈ scanned s n, accepted url ch = true := fun ch hch =>
      (isSym_iff_accepted url ch (hbyte ch hch)).mp (hall ch hch)
    simp only [decide_eq_true_eq]
    exact ⟨fun h => ⟨hacc, h⟩, fun h => h.2⟩
  · have hsplit := List.takeWhile_append_dropWhile (isSym url) (scanned s n)
    rcases dropWhile_head (isSym url) (scanned s n) with hd | ⟨x, b, hd, hx⟩
    · rw [hd, List.append_nil] at hsplit
      exact absurd (fun ch hch => by
        rw [← hsplit] at hch
        exact List.mem_takeWhile_imp hch) hall
    · have hxmem : x ∈ scanned s n := by
        rw [← hsplit, hd]; simp
      have hxns : stopChar x = false := by
        have := List.mem_takeWhile_imp hxmem
        simpa using this
      have hxinv : classify url x = CharClass.invalid := by
        apply classify_invalid_of url x hx
        intro hstop
        rw [(classify_stop_iff url x (hbyte x hxmem)).mp hstop] at hxns
        exact absurd hxns (by decide)
      have hw : s.take n = (scanned s n).takeWhile (isSym url) ++ x :: (b ++ tl) := by
        calc s.take n = scanned s n ++ tl := h1
          _ = ((scanned s n).takeWhile (isSym url) ++ x :: b) ++ tl := by rw [← hd, hsplit]
          _ = (scanned s n).takeWhile (isSym url) ++ x :: (b ++ tl) := by simp
      have hfalse := decodeRun_invalid url true x (b ++ tl) hxinv
        ((scanned s n).takeWhile (isSym url)) (fun ch hch => List.mem_takeWhile_imp hch) c 0 []
      rw [hw, hfalse]
      constructor
      · intro h; exact absurd h (by decide)
      · intro h
        have hxa := h.1 x hxmem
        rw [← isSym_iff_accepted url x (hbyte x hxmem), hx] at hxa
        exact absurd hxa (by decide)

theorem C4_decode_succeeds_iff_witness :
    (Decode (codes "ab-_=x") 6 true 3 true).ok = true ↔
      (∀ ch ∈ scanned (codes "ab-_=x") 6, accepted true ch = true) ∧
        decodedLen (scanned (codes "ab-_=x") 6).length ≤ 3 :=
  C4_decode_succeeds_iff (codes "ab-_=x") 6 3 true (by decide)

/-- Claim C4 as stated fails in URL-safe mode: `Decode` of `"++"` with capacity 1 returns
true although `'+'` is not a symbol of the URL-safe alphabet. -/
theorem C4_counterexample :
    IsBytes (codes "++") ∧
    (Decode (codes "++") 2 true 1 true).ok = true ∧
    ¬ ((∀ ch ∈ scanned (codes "++") 2, ch ∈ alphabet true) ∧
        decodedLen (scanned (codes "++") 2).length ≤ 1) := by
  decide

/-- Claim C5: for an input whose characters before the first null or `'='` within the
declared length are `k` symbols of the selected alphabet, and a present buffer of
capacity at least `L = 3 * floor(k / 4) + t`, `Decode` returns true, leaves `L` in the
capacity field and stores, from offset 0, exactly the first `L` bytes of the bit string
of the 6-bit values of those symbols. -/
theorem C5_decode_bit_string (s : List Nat) (n c : Nat) (url : Bool) (hc : c < 2 ^ 32)
    (hsym : ∀ ch ∈ scanned s n, ch ∈ alphabet url)
    (hcap : decodedLen (scanned s n).length ≤ c) :
    Decode s n true c url =
      { ok := true
        cub := decodedLen (scanned s n).length
        stores := List.enumFrom 0
          ((bytesOfBits (bitString url (scanned s n))).take
            (decodedLen (scanned s n).length)) } := by
  have hs : ∀ ch ∈ scanned s n, isSym url ch = true := fun ch hch =>
    isSym_of_mem_alphabet url ch (hsym ch hch)
  have hvals : (scanned s n).map (symValue url) =
      (scanned s n).map (fun ch => (alphabet url).indexOf ch) :=
    List.map_congr_left (fun ch hch => symValue_of_mem_alphabet url ch (hsym ch hch))
  have hlt : ∀ v ∈ (scanned s n).map (symValue url), v < 64 := by
    intro v hv
    obtain ⟨ch, hch, rfl⟩ := List.mem_map.mp hv
    exact symValue_lt url ch (hs ch hch)
  have hbits : bytesOfBits (bitString url (scanned s n)) =
      octets ((scanned s n).map (symValue url)) := by
    rw [← bytesOfBits_bits6 _ hlt, hvals]
    unfold bitString
    rw [List.flatMap_def, List.flatMap_def, List.map_map]
    rfl
  have hlen : (octets ((scanned s n).map (symValue url))).length =
      decodedLen (scanned s n).length := by
    rw [octets_length, List.length_map]
  rw [Decode_syms s n c url hc hs, hbits, List.take_of_length_le (by omega),
    List.take_of_length_le (by omega)]
  simp only [DecodeResult.mk.injEq, decide_eq_true_eq, and_true]
  omega

theorem C5_decode_bit_string_witness :
    Decode (codes "abc=") 4 true 2 false =
      { ok := true, cub := 2, stores := [(0, 0x69), (1, 0xb7)] } :=
  (C5_decode_bit_string (codes "abc=") 4 2 false (by decide) (by decide) (by decide)).trans
    (by decide)

/-- Claim C9, the code at capacity 0: `Encode` with a present buffer of declared capacity
0 stores a terminator at offset 0, which is not below the capacity. -/
theorem C9_encode_capacity_zero_store :
    (Encode [0x66] true 0 false).stores = [(0, 0)] ∧
    ¬ (∀ st ∈ (Encode [0x66] true 0 false).stores, st.1 < 0) := by
  decide

/-- Claim C10: when position `p < n` of the input holds a null or a `'='` (in particular
the first such position), `Decode` with declared length `n` returns the same flag, the
same capacity value and the same stores as `Decode` on the first `p` characters with
declared length `p`, whatever follows position `p`. -/
theorem C10_decode_stops_at_stop (s : List Nat) (n p c : Nat) (present url : Bool)
    (hp : p < n) (hlen : p < s.length) (hstop : stopChar (s.get ⟨p, hlen⟩) = true) :
    Decode s n present c url = Decode (s.take p) p present c url := by
  have hw : s.take n = s.take p ++ s.get ⟨p, hlen⟩ :: (s.take n).drop (p + 1) := by
    have hlen2 : p < (s.take n).length := by
      rw [List.length_take]; omega
    have h1 := List.take_append_drop p (s.take n)
    rw [List.take_take, Nat.min_eq_left (Nat.le_of_lt hp),
      List.drop_eq_getElem_cons hlen2, List.getElem_take] at h1
    exact h1.symm
  rw [Decode_eq_run, Decode_eq_run, List.take_take, Nat.min_self, hw,
    decodeRun_append_stop url present _ _ (classify_stopChar url _ hstop)]

theorem C10_decode_stops_at_stop_witness :
    Decode (codes "abcd=efg") 8 true 5 false =
      Decode ((codes "abcd=efg").take 4) 4 true 5 false :=
  C10_decode_stops_at_stop (codes "abcd=efg") 8 4 5 true false (by decide) (by decide)
    (by decide)

/-! ## Claims about the size functions, the query mode and the two alphabets -/

/-- Claim C13, query mode of `Encode`: with an absent output buffer and declared capacity
0, in either mode, `Encode` returns true, leaves `GetEncodeMaxOutput(n)` in the capacity
field and performs no store; the result is the same for any two inputs of one length. -/
theorem C13_encode_query_mode (B : List Nat) (url : Bool) :
    Encode B false 0 url =
      { ok := true, cch := GetEncodeMaxOutput B.length, stores := [] } ∧
    ∀ B2 : List Nat, B2.length = B.length → Encode B2 false 0 url = Encode B false 0 url := by
  refine ⟨rfl, fun B2 h => ?_⟩
  simp only [Encode, Bool.not_false, if_true, h]

theorem C13_encode_query_mode_witness :
    Encode [1, 2, 3, 4] false 0 true =
      { ok := true, cch := GetEncodeMaxOutput [1, 2, 3, 4].length, stores := [] } ∧
    Encode [9, 8, 7, 6] false 0 true = Encode [1, 2, 3, 4] false 0 true :=
  ⟨(C13_encode_query_mode [1, 2, 3, 4] true).1,
    (C13_encode_query_mode [1, 2, 3, 4] true).2 [9, 8, 7, 6] rfl⟩

/-- Claim C16, as amended: `GetEncodeMaxOutput(n)`, computed in 32-bit unsigned
arithmetic, equals `ceil(n / 3) * 4 + 1` exactly when that value is below `2 ^ 32`, that
is for `n <= 3221225469`. -/
theorem C16_encode_max_output (n : Nat) :
    (GetEncodeMaxOutput n = (n + 2) / 3 * 4 + 1 ↔ (n + 2) / 3 * 4 + 1 < 2 ^ 32) ∧
    ((n + 2) / 3 * 4 + 1 < 2 ^ 32 ↔ n ≤ 3221225469) := by
  refine ⟨⟨fun h => ?_, GetEncodeMaxOutput_eq n⟩, by omega⟩
  have hlt : GetEncodeMaxOutput n < 2 ^ 32 := by
    unfold GetEncodeMaxOutput U32
    exact Nat.mod_lt _ (by decide)
  omega

/-- Claim C16 as stated fails: `GetEncodeMaxOutput(3221225470)` is 1 and not
`ceil(3221225470 / 3) * 4 + 1 = 4294967297`. -/
theorem C16_counterexample :
    3221225470 < 2 ^ 32 ∧ GetEncodeMaxOutput 3221225470 = 1 ∧
    (3221225470 + 2) / 3 * 4 + 1 = 4294967297 := by
  decide

/-- Claim C17, the code at the largest lengths: `GetDecodeMaxOutput` is 1 for
`n = 4294967293, 4294967294, 4294967295`, where `ceil(n / 4) * 3 + 1` is 3221225473, a
value below `2 ^ 32`. -/
theorem C17_decode_max_output_wraps :
    GetDecodeMaxOutput 4294967295 = 1 ∧ GetDecodeMaxOutput 4294967294 = 1 ∧
    GetDecodeMaxOutput 4294967293 = 1 ∧
    (4294967295 + 3) / 4 * 3 + 1 = 3221225473 ∧ 3221225473 < 2 ^ 32 := by
  decide

/-- Below the three largest lengths `GetDecodeMaxOutput(n)` is `ceil(n / 4) * 3 + 1`,
and that value is below `2 ^ 32` for every 32-bit `n`. -/
theorem GetDecodeMaxOutput_iff (n : Nat) (hn : n < 2 ^ 32) :
    (GetDecodeMaxOutput n = (n + 3) / 4 * 3 + 1 ↔ n + 3 < 2 ^ 32) ∧
    (n + 3) / 4 * 3 + 1 < 2 ^ 32 := by
  refine ⟨⟨fun h => ?_, GetDecodeMaxOutput_eq n⟩, by omega⟩
  by_contra hlt
  have h1 : (n + 3) % U32 < 3 := by unfold U32; omega
  have h2 : GetDecodeMaxOutput n = 1 := by
    unfold GetDecodeMaxOutput
    have : (n + 3) % U32 / 4 = 0 := by omega
    rw [this]
    decide
  omega

/-- In standard mode a character that does not make `Decode` fail is treated the same
way in URL-safe mode. -/
theorem classify_urlSafe_of_standard (c : Nat)
    (h : classify false c ≠ CharClass.invalid) : classify true c = classify false c := by
  by_cases h45 : c = 45
  · subst h45; exact absurd (by decide) h
  · by_cases h95 : c = 95
    · subst h95; exact absurd (by decide) h
    · simp [classify, h45, h95]

theorem decodeLoop_urlSafe_of_standard (p : Bool) (chars : List Nat) :
    ∀ st : DecodeState, (decodeLoop false p chars st).1 = true →
      decodeLoop true p chars st = decodeLoop false p chars st := by
  induction chars with
  | nil => intro st _; rw [decodeLoop, decodeLoop]
  | cons c rest ih =>
    intro st h
    have hc : classify false c ≠ CharClass.invalid := by
      intro hinv
      rw [decodeLoop_invalid false p c rest st hinv] at h
      exact absurd h Bool.false_ne_true
    rw [decodeLoop, classify_urlSafe_of_standard c hc]
    rw [decodeLoop] at h ⊢
    split
    · rfl
    · rfl
    · rename_i v hv
      rw [hv] at h
      simp only at h ⊢
      split
      · split
        · rfl
        · rename_i h1 h2
          rw [if_pos h1, if_neg h2] at h
          exact ih _ h
      · rename_i h1
        rw [if_neg h1] at h
        exact ih _ h

/-- Claim C20: when `Decode` with the standard alphabet returns true, `Decode` with the
URL-safe alphabet on the same arguments returns true with the same capacity value and the
same stores; `'+'` and `'/'` are accepted as symbols 62 and 63 in URL-safe mode, and
`'-'` and `'_'` are rejected in standard mode. -/
theorem C20_urlsafe_decode_superset :
    (∀ (s : List Nat) (n : Nat) (present : Bool) (c : Nat),
      (Decode s n present c false).ok = true →
        Decode s n present c true = Decode s n present c false) ∧
    classify true 43 = CharClass.sym 62 ∧ classify true 47 = CharClass.sym 63 ∧
    classify false 45 = CharClass.invalid ∧ classify false 95 = CharClass.invalid ∧
    (Decode (codes "-_") 2 true 1 false).ok = false ∧
    (Decode (codes "-_") 2 true 1 true).ok = true := by
  refine ⟨?_, by decide, by decide, by decide, by decide, by decide, by decide⟩
  intro s n present c h
  unfold Decode at h ⊢
  simp only at h ⊢
  have hscan : (decodeLoop false present (s.take n)
      ⟨1, if present = true then c else U32 - 1, 0, []⟩).1 = true := by
    by_contra hf
    rw [if_neg hf] at h
    exact absurd h Bool.false_ne_true
  rw [decodeLoop_urlSafe_of_standard present (s.take n) _ hscan]

theorem C20_urlsafe_decode_superset_witness :
    (Decode (codes "a+b/") 4 true 3 false).ok = true ∧
    Decode (codes "a+b/") 4 true 3 true = Decode (codes "a+b/") 4 true 3 false :=
  ⟨by decide, C20_urlsafe_decode_superset.1 (codes "a+b/") 4 true 3 (by decide)⟩

/-! ## Encode: the failure path and the two output strings -/

theorem GetEncodeMaxOutput_le (n : Nat) : GetEncodeMaxOutput n ≤ (n + 2) / 3 * 4 + 1 := by
  unfold GetEncodeMaxOutput
  have h1 : (n + 2) % U32 ≤ n + 2 := Nat.mod_le _ _
  have h2 : (n + 2) % U32 / 3 ≤ (n + 2) / 3 := Nat.div_le_div_right h1
  have h3 : ((n + 2) % U32 / 3 * 4) % U32 ≤ (n + 2) % U32 / 3 * 4 := Nat.mod_le _ _
  have h4 : (((n + 2) % U32 / 3 * 4) % U32 + 1) % U32 ≤
      ((n + 2) % U32 / 3 * 4) % U32 + 1 := Nat.mod_le _ _
  omega

/-- The loop of `Encode` without room for every group: it stores the symbols of the
complete groups that fit, then the terminator. -/
theorem encodeLoop_fail_stores (url : Bool) (n : Nat) (B : List Nat) :
    ∀ pch cch stores, cch < (B.length + 2) / 3 * 4 →
      (encodeLoop url n B pch cch stores).stores =
        stores ++ List.enumFrom pch
          (encodeChars url (B.take (3 * min (B.length / 3) (cch / 4))) ++ [0]) := by
  induction B using sextets.induct with
  | case1 b0 b1 b2 rest ih =>
    intro pch cch stores h
    simp only [List.length_cons] at h
    rw [encodeLoop]
    by_cases h4 : cch < 4
    · have hj : min ((b0 :: b1 :: b2 :: rest).length / 3) (cch / 4) = 0 := by
        have : cch / 4 = 0 := by omega
        rw [this]; exact Nat.min_zero _
      rw [if_pos h4, hj]
      simp [encodeOutOfSpace, encodeChars, sextets, padCount]
    · rw [if_neg h4, ih (pch + 4) (cch - 4) _ (by omega)]
      have hj : min ((b0 :: b1 :: b2 :: rest).length / 3) (cch / 4) =
          min (rest.length / 3) ((cch - 4) / 4) + 1 := by
        simp only [List.length_cons]; omega
      rw [hj]
      have ht : 3 * (min (rest.length / 3) ((cch - 4) / 4) + 1) =
          3 * min (rest.length / 3) ((cch - 4) / 4) + 1 + 1 + 1 := by omega
      rw [ht, List.take_succ_cons, List.take_succ_cons, List.take_succ_cons,
        encodeChars_cons3]
      simp only [List.cons_append, List.enumFrom_cons, List.append_assoc,
        List.singleton_append]
      rfl
  | case2 b0 b1 =>
    intro pch cch stores h
    simp only [List.length_cons, List.length_nil] at h
    have h4 : cch < 4 := by omega
    simp [encodeLoop, h4, encodeOutOfSpace, encodeChars, sextets, padCount]
  | case3 b0 =>
    intro pch cch stores h
    simp only [List.length_cons, List.length_nil] at h
    have h4 : cch < 4 := by omega
    simp [encodeLoop, h4, encodeOutOfSpace, encodeChars, sextets, padCount]
  | case4 =>
    intro pch cch stores h
    simp at h

/-- The encoding of the first `j` complete groups is a prefix of the full encoding. -/
theorem encodeChars_take (url : Bool) (j : Nat) : ∀ B : List Nat, j ≤ B.length / 3 →
    encodeChars url (B.take (3 * j)) = (encodeChars url B).take (4 * j) := by
  induction j with
  | zero => intro B _; simp [encodeChars, sextets, padCount]
  | succ j ih =>
    intro B h
    match B, h with
    | b0 :: b1 :: b2 :: rest, h =>
      simp only [List.length_cons] at h
      have h3 : 3 * (j + 1) = 3 * j + 1 + 1 + 1 := by omega
      have h4 : 4 * (j + 1) = 4 * j + 1 + 1 + 1 + 1 := by omega
      rw [h3, h4, List.take_succ_cons, List.take_succ_cons, List.take_succ_cons,
        encodeChars_cons3, encodeChars_cons3, List.take_succ_cons, List.take_succ_cons,
        List.take_succ_cons, List.take_succ_cons, ih rest (by omega)]
    | [], h => exact absurd h (by simp)
    | [_], h => exact absurd h (by simp only [List.length_cons, List.length_nil]; omega)
    | [_, _], h => exact absurd h (by simp only [List.length_cons, List.length_nil]; omega)

set_option maxRecDepth 100000 in
theorem encChar_table : ∀ url : Bool, ∀ i : Fin 64,
    encChar url i.val ∈ alphabet url ∧ encChar url i.val ≠ 0 ∧ encChar url i.val ≠ 61 ∧
    toUrlSafe (encChar false i.val) = encChar true i.val := by
  decide

/-- The encoding of complete groups consists of symbols of the selected alphabet. -/
theorem encodeChars_groups_mem (url : Bool) (B : List Nat) (h : B.length % 3 = 0) :
    ∀ ch ∈ encodeChars url B, ch ∈ alphabet url := by
  intro ch hch
  have hp : padCount B.length = 0 := by simp only [padCount]; omega
  simp only [encodeChars, hp, List.replicate_zero, List.append_nil, List.mem_map] at hch
  obtain ⟨v, hv, rfl⟩ := hch
  exact (encChar_table url ⟨v, sextets_lt B v hv⟩).1

/-- Reading more cells than were stored: the stored list comes first. -/
theorem readMem_applyStores_more (l : List Nat) (mem : Nat → Nat) (n : Nat)
    (hn : l.length ≤ n) :
    ∃ more, readMem (applyStores mem (List.enumFrom 0 l)) n = l ++ more := by
  obtain ⟨k, rfl⟩ : ∃ k, n = l.length + k := ⟨n - l.length, by omega⟩
  refine ⟨(List.range k).map
    (fun i => applyStores mem (List.enumFrom 0 l) (l.length + i)), ?_⟩
  have h := readMem_applyStores l mem l.length (Nat.le_refl _)
  rw [List.take_length] at h
  unfold readMem at h ⊢
  rw [List.range_add, List.map_append, h, List.map_map]
  rfl

theorem cString_append_null (l more : List Nat) : cString (l ++ 0 :: more) = cString l := by
  unfold cString
  induction l with
  | nil => simp
  | cons a l ih =>
    by_cases ha : a = 0
    · subst ha; simp
    · rw [List.cons_append, List.takeWhile_cons_of_pos (by simpa using ha),
        List.takeWhile_cons_of_pos (by simpa using ha), ih]

theorem dropWhile_eq_self (q : Nat → Bool) (l : List Nat) (h : ∀ x ∈ l, q x = false) :
    l.dropWhile q = l := by
  cases l with
  | nil => rfl
  | cons a l => rw [List.dropWhile_cons_of_neg (by simp [h a (by simp)])]

theorem dropWhile_replicate_append (q : Nat → Bool) (a : Nat) (ha : q a = true)
    (k : Nat) (l : List Nat) : (List.replicate k a ++ l).dropWhile q = l.dropWhile q := by
  induction k with
  | zero => simp
  | succ k ih => rw [List.replicate_succ, List.cons_append, List.dropWhile_cons_of_pos ha, ih]

/-- The C string that URL-safe `Encode` leaves: the symbols, without the null padding. -/
theorem cString_encodeChars_url (B more : List Nat) :
    cString ((encodeChars true B ++ [0]) ++ more) = (sextets B).map (encChar true) := by
  rw [List.append_assoc, List.singleton_append, cString_append_null]
  unfold cString encodeChars
  apply takeWhile_append_end
  · intro x hx
    obtain ⟨v, hv, rfl⟩ := List.mem_map.mp hx
    have := (encChar_table true ⟨v, sextets_lt B v hv⟩).2.1
    simpa using this
  · cases hk : padCount B.length with
    | zero => exact Or.inl rfl
    | succ k => exact Or.inr ⟨padChar true, List.replicate k (padChar true), rfl, by decide⟩

/-- The C string that standard `Encode` leaves: the symbols and the `'='` padding. -/
theorem cString_encodeChars_std (B more : List Nat) :
    cString ((encodeChars false B ++ [0]) ++ more) = encodeChars false B := by
  rw [List.append_assoc, List.singleton_append, cString_append_null]
  unfold cString
  rw [List.takeWhile_eq_self_iff]
  intro x hx
  simp only [encodeChars, List.mem_append, List.mem_map, List.mem_replicate] at hx
  rcases hx with ⟨v, hv, rfl⟩ | ⟨-, rfl⟩
  · have := (encChar_table false ⟨v, sextets_lt B v hv⟩).2.1
    simpa using this
  · decide

theorem stripPadding_encodeChars_std (B : List Nat) :
    stripPadding (encodeChars false B) = (sextets B).map (encChar false) := by
  unfold stripPadding encodeChars
  rw [List.reverse_append, List.reverse_replicate,
    dropWhile_replicate_append _ _ (by decide), dropWhile_eq_self, List.reverse_reverse]
  intro x hx
  rw [List.mem_reverse] at hx
  obtain ⟨v, hv, rfl⟩ := List.mem_map.mp hx
  have := (encChar_table false ⟨v, sextets_lt B v hv⟩).2.2.1
  simpa using this

/-- Claim C18: for a byte sequence and a present buffer of sufficient capacity, the
string that URL-safe `Encode` produces (the characters from position 0 up to the first
null) is the string that standard `Encode` produces with its trailing `'='` characters
removed, every `'+'` replaced by `'-'` and every `'/'` replaced by `'_'`. -/
theorem C18_urlsafe_string_of_standard (B : List Nat) (c : Nat) (mem : Nat → Nat)
    (hc : (B.length + 2) / 3 * 4 + 1 ≤ c) :
    cString (readMem (applyStores mem (Encode B true c true).stores) c) =
      (stripPadding
        (cString (readMem (applyStores mem (Encode B true c false).stores) c))).map
        toUrlSafe := by
  have hlen : ∀ url, (encodeChars url B ++ [0]).length ≤ c := by
    intro url
    rw [List.length_append, encodeChars_length]
    exact hc
  rw [Encode_ok true B c hc, Encode_ok false B c hc]
  obtain ⟨m1, h1⟩ := readMem_applyStores_more (encodeChars true B ++ [0]) mem c (hlen true)
  obtain ⟨m2, h2⟩ := readMem_applyStores_more (encodeChars false B ++ [0]) mem c (hlen false)
  simp only
  rw [h1, h2, cString_encodeChars_url, cString_encodeChars_std, stripPadding_encodeChars_std,
    List.map_map]
  apply List.map_congr_left
  intro v hv
  exact ((encChar_table false ⟨v, sextets_lt B v hv⟩).2.2.2).symm

theorem C18_urlsafe_string_of_standard_witness :
    cString (readMem (applyStores (fun _ => 255)
      (Encode [0xfb, 0xff, 0xbe, 0x01] true 9 true).stores) 9) =
      (stripPadding (cString (readMem (applyStores (fun _ => 255)
        (Encode [0xfb, 0xff, 0xbe, 0x01] true 9 false).stores) 9))).map toUrlSafe :=
  C18_urlsafe_string_of_standard [0xfb, 0xff, 0xbe, 0x01] 9 (fun _ => 255) (by decide)

/-- As compiled with `NDEBUG`: for an input of length `n` and a present buffer of capacity
`c` with `1 <= c < GetEncodeMaxOutput(n)`, `Encode` fails and its stores are, from offset
0, the
`4 * j` symbols of the first `j = min(floor(n / 3), floor((c - 1) / 4))` complete 3-byte
groups, a prefix of the full encoding, followed by a null terminator at offset `4 * j`;
nothing of a group that does not fit, and nothing of the trailing group of 1 or 2 bytes,
is stored. -/
theorem Encode_failure_stores (B : List Nat) (c : Nat) (url : Bool) (h1 : 1 ≤ c)
    (h2 : c < GetEncodeMaxOutput B.length) :
    (Encode B true c url).ok = false ∧
    (Encode B true c url).stores =
      List.enumFrom 0
        (encodeChars url (B.take (3 * min (B.length / 3) ((c - 1) / 4))) ++ [0]) ∧
    (encodeChars url (B.take (3 * min (B.length / 3) ((c - 1) / 4)))).length =
      4 * min (B.length / 3) ((c - 1) / 4) ∧
    encodeChars url (B.take (3 * min (B.length / 3) ((c - 1) / 4))) =
      (encodeChars url B).take (4 * min (B.length / 3) ((c - 1) / 4)) ∧
    ∀ ch ∈ encodeChars url (B.take (3 * min (B.length / 3) ((c - 1) / 4))),
      ch ∈ alphabet url := by
  have hle := GetEncodeMaxOutput_le B.length
  have hc : c - 1 < (B.length + 2) / 3 * 4 := by omega
  have hj : 3 * min (B.length / 3) ((c - 1) / 4) ≤ B.length := by omega
  have hlen : (B.take (3 * min (B.length / 3) ((c - 1) / 4))).length =
      3 * min (B.length / 3) ((c - 1) / 4) := by
    rw [List.length_take]; omega
  refine ⟨(Encode_fail url B c (by omega)).1, ?_, ?_, ?_, ?_⟩
  · have h0 : ¬ c = 0 := by omega
    simp only [Encode, Bool.not_true, Bool.false_eq_true, if_false, if_neg h0]
    rw [encodeLoop_fail_stores url B.length B 0 (c - 1) [] hc]
    rfl
  · rw [encodeChars_length, hlen]; omega
  · exact encodeChars_take url _ B (Nat.min_le_left _ _)
  · exact encodeChars_groups_mem url _ (by rw [hlen]; omega)

/-! ## Decode: failure on an invalid character, absent buffer -/

/-- An invalid character after a run of symbols, from an empty accumulator and with room
for the complete groups that precede it: the bytes of these groups are stored, and the
call fails. -/
theorem decodeRun_invalid_full (url p : Bool) (x : Nat) (rest : List Nat)
    (hx : classify url x = CharClass.invalid) (syms : List Nat) :
    (∀ c ∈ syms, isSym url c = true) → ∀ (cub pub : Nat) (ss : List (Nat × Nat)),
      3 * (syms.length / 4) ≤ cub →
      decodeRun url p (syms ++ x :: rest) ⟨1, cub, pub, ss⟩ =
        (false, cub - 3 * (syms.length / 4),
          if p then ss ++ List.enumFrom pub
            (octets ((syms.take (4 * (syms.length / 4))).map (symValue url)))
          else ss) := by
  induction syms using octets.induct with
  | case1 c0 c1 c2 c3 more ih =>
    intro hs cub pub ss hcap
    have h0 : isSym url c0 = true := hs c0 (by simp)
    have h1 : isSym url c1 = true := hs c1 (by simp)
    have h2 : isSym url c2 = true := hs c2 (by simp)
    have h3 : isSym url c3 = true := hs c3 (by simp)
    have hr : ∀ c ∈ more, isSym url c = true := fun c hc => hs c (by simp [hc])
    have hl : (c0 :: c1 :: c2 :: c3 :: more).length / 4 = more.length / 4 + 1 := by
      simp only [List.length_cons]; omega
    rw [hl] at hcap ⊢
    have hc : 3 ≤ cub := by omega
    have IH := ih hr (cub - 3) (if p then pub + 3 else pub)
      (if p then ss ++ [(pub, symValue url c0 * 4 + symValue url c1 / 16),
          (pub + 1, symValue url c1 % 16 * 16 + symValue url c2 / 4),
          (pub + 2, symValue url c2 % 4 * 64 + symValue url c3)] else ss) (by omega)
    simp only [List.cons_append]
    unfold decodeRun at IH ⊢
    rw [decodeLoop_group_flush url p c0 c1 c2 c3 _ cub pub ss h0 h1 h2 h3 hc, IH]
    have ht : 4 * (more.length / 4 + 1) = 4 * (more.length / 4) + 1 + 1 + 1 + 1 := by omega
    rw [ht, List.take_succ_cons, List.take_succ_cons, List.take_succ_cons,
      List.take_succ_cons]
    refine Prod.ext rfl (Prod.ext ?_ ?_)
    · simp only; omega
    · cases p <;> simp [octets, List.enumFrom_cons]
  | case2 c0 c1 c2 =>
    intro hs cub pub ss _
    have h0 : isSym url c0 = true := hs c0 (by simp)
    have h1 : isSym url c1 = true := hs c1 (by simp)
    have h2 : isSym url c2 = true := hs c2 (by simp)
    have b0 := symValue_lt url c0 h0
    have b1 := symValue_lt url c1 h1
    have b2 := symValue_lt url c2 h2
    have hscan : decodeLoop url p ([c0, c1, c2] ++ x :: rest) ⟨1, cub, pub, ss⟩ =
        (false, ⟨((1 * 64 + symValue url c0) * 64 + symValue url c1) * 64 + symValue url c2,
          cub, pub, ss⟩) := by
      simp only [List.cons_append, List.nil_append]
      rw [decodeLoop_sym_acc url p c0 _ _ 1 cub pub ss (classify_of_isSym url c0 h0) b0
          (by omega),
        decodeLoop_sym_acc url p c1 _ _ _ cub pub ss (classify_of_isSym url c1 h1) b1
          (by omega),
        decodeLoop_sym_acc url p c2 _ _ _ cub pub ss (classify_of_isSym url c2 h2) b2
          (by omega),
        decodeLoop_invalid url p x rest _ hx]
    rw [decodeRun_of_failed url p _ _ _ hscan]
    cases p <;> simp [octets]
  | case3 c0 c1 =>
    intro hs cub pub ss _
    have h0 : isSym url c0 = true := hs c0 (by simp)
    have h1 : isSym url c1 = true := hs c1 (by simp)
    have b0 := symValue_lt url c0 h0
    have b1 := symValue_lt url c1 h1
    have hscan : decodeLoop url p ([c0, c1] ++ x :: rest) ⟨1, cub, pub, ss⟩ =
        (false, ⟨(1 * 64 + symValue url c0) * 64 + symValue url c1, cub, pub, ss⟩) := by
      simp only [List.cons_append, List.nil_append]
      rw [decodeLoop_sym_acc url p c0 _ _ 1 cub pub ss (classify_of_isSym url c0 h0) b0
          (by omega),
        decodeLoop_sym_acc url p c1 _ _ _ cub pub ss (classify_of_isSym url c1 h1) b1
          (by omega),
        decodeLoop_invalid url p x rest _ hx]
    rw [decodeRun_of_failed url p _ _ _ hscan]
    cases p <;> simp [octets]
  | case4 c0 =>
    intro hs cub pub ss _
    have h0 : isSym url c0 = true := hs c0 (by simp)
    have b0 := symValue_lt url c0 h0
    have hscan : decodeLoop url p ([c0] ++ x :: rest) ⟨1, cub, pub, ss⟩ =
        (false, ⟨1 * 64 + symValue url c0, cub, pub, ss⟩) := by
      simp only [List.cons_append, List.nil_append]
      rw [decodeLoop_sym_acc url p c0 _ _ 1 cub pub ss (classify_of_isSym url c0 h0) b0
          (by omega),
        decodeLoop_invalid url p x rest _ hx]
    rw [decodeRun_of_failed url p _ _ _ hscan]
    cases p <;> simp [octets]
  | case5 =>
    intro _ cub pub ss _
    rw [List.nil_append, decodeRun_of_failed url p _ _ _ (decodeLoop_invalid url p x rest _ hx)]
    cases p <;> simp [octets]

/-- `Decode`, with or without an output buffer, on a window made of a run of symbols that
the end of the input or a stop character ends.  Without a buffer the capacity is
`2 ^ 32 - 1`. -/
theorem Decode_window_syms (s : List Nat) (n : Nat) (p : Bool) (c : Nat) (url : Bool)
    (syms tl : List Nat) (hw : s.take n = syms ++ tl) (ht : EndsScan url tl)
    (hs : ∀ ch ∈ syms, isSym url ch = true) (hc : (if p then c else U32 - 1) < 2 ^ 32) :
    Decode s n p c url =
      { ok := decide (decodedLen syms.length ≤ (if p then c else U32 - 1))
        cub := min (decodedLen syms.length) (if p then c else U32 - 1)
        stores := if p then
            List.enumFrom 0 ((octets (syms.map (symValue url))).take c)
          else [] } := by
  rw [Decode_eq_run, hw, decodeRun_syms url p tl ht syms hs _ 0 []]
  simp only [DecodeResult.mk.injEq, true_and]
  constructor
  · unfold U32 at hc ⊢; omega
  · cases p <;> simp

/-- `Decode`, with or without an output buffer, on a window in which an invalid character
follows a run of symbols, with room for the complete groups of the run. -/
theorem Decode_window_invalid (s : List Nat) (n : Nat) (p : Bool) (c : Nat) (url : Bool)
    (syms : List Nat) (x : Nat) (rest : List Nat) (hw : s.take n = syms ++ x :: rest)
    (hs : ∀ ch ∈ syms, isSym url ch = true) (hx : classify url x = CharClass.invalid)
    (hc : (if p then c else U32 - 1) < 2 ^ 32)
    (hcap : 3 * (syms.length / 4) ≤ (if p then c else U32 - 1)) :
    Decode s n p c url =
      { ok := false
        cub := 3 * (syms.length / 4)
        stores := if p then
            List.enumFrom 0 (octets ((syms.take (4 * (syms.length / 4))).map (symValue url)))
          else [] } := by
  rw [Decode_eq_run, hw, decodeRun_invalid_full url p x rest hx syms hs _ 0 [] hcap]
  simp only [DecodeResult.mk.injEq, true_and]
  constructor
  · unfold U32 at hc hcap ⊢; omega
  · cases p <;> simp

/-- The declared window of an input of bytes: either all the scanned characters are taken
for symbols, or an invalid character follows a run of symbols among them. -/
theorem window_cases (url : Bool) (s : List Nat) (n : Nat) (hs : IsBytes s) :
    (∀ ch ∈ scanned s n, isSym url ch = true) ∨
    ∃ syms x rest, s.take n = syms ++ x :: rest ∧ (∀ ch ∈ syms, isSym url ch = true) ∧
      classify url x = CharClass.invalid ∧ syms.length < (scanned s n).length ∧
      x ∈ scanned s n ∧ isSym url x = false := by
  have hbyte : ∀ ch ∈ scanned s n, ch < 256 := fun ch hch =>
    hs ch (List.mem_of_mem_take (List.takeWhile_subset _ hch))
  obtain ⟨tl, h1, -⟩ := window_split url s n
  by_cases hall : ∀ ch ∈ scanned s n, isSym url ch = true
  · exact Or.inl hall
  · right
    have hsplit := List.takeWhile_append_dropWhile (isSym url) (scanned s n)
    rcases dropWhile_head (isSym url) (scanned s n) with hd | ⟨x, b, hd, hx⟩
    · rw [hd, List.append_nil] at hsplit
      exact absurd (fun ch hch => by
        rw [← hsplit] at hch
        exact List.mem_takeWhile_imp hch) hall
    · have hxmem : x ∈ scanned s n := by
        rw [← hsplit, hd]; simp
      have hxns : stopChar x = false := by
        have := List.mem_takeWhile_imp hxmem
        simpa using this
      have hxinv : classify url x = CharClass.invalid := by
        apply classify_invalid_of url x hx
        intro hstop
        rw [(classify_stop_iff url x (hbyte x hxmem)).mp hstop] at hxns
        exact absurd hxns (by decide)
      refine ⟨(scanned s n).takeWhile (isSym url), x, b ++ tl, ?_,
        fun ch hch => List.mem_takeWhile_imp hch, hxinv, ?_, hxmem, hx⟩
      · calc s.take n = scanned s n ++ tl := h1
          _ = ((scanned s n).takeWhile (isSym url) ++ x :: b) ++ tl := by rw [← hd, hsplit]
          _ = (scanned s n).takeWhile (isSym url) ++ x :: (b ++ tl) := by simp
      · have hl := congrArg List.length hsplit
        rw [hd, List.length_append, List.length_cons] at hl
        omega

theorem scanned_length_le (s : List Nat) (n : Nat) : (scanned s n).length ≤ n := by
  unfold scanned
  have h1 := (List.takeWhile_sublist (fun c => !stopChar c) (l := s.take n)).length_le
  have h2 : (s.take n).length ≤ n := by rw [List.length_take]; exact Nat.min_le_left _ _
  omega

theorem decodedLen_le (k : Nat) : decodedLen k ≤ 3 * ((k + 3) / 4) := by
  unfold decodedLen
  split <;> [skip; split] <;> omega

set_option maxRecDepth 100000 in
theorem alphabet_lt : ∀ url : Bool, ∀ ch ∈ alphabet url, ch < 256 := by
  decide

theorem accepted_lt (url : Bool) (c : Nat) (h : accepted url c = true) : c < 256 := by
  simp only [accepted, Bool.or_eq_true, decide_eq_true_eq, Bool.and_eq_true, beq_iff_eq] at h
  rcases h with h | ⟨-, h | h⟩
  · exact alphabet_lt url c h
  · omega
  · omega

set_option maxRecDepth 100000 in
theorem accepted_table : ∀ url : Bool, ∀ x : Fin 256, accepted url x.val = true →
    symValue url x.val = symbolValue url x.val ∧ stopChar x.val = false := by
  decide

theorem isSym_of_accepted (url : Bool) (c : Nat) (h : accepted url c = true) :
    isSym url c = true :=
  (isSym_iff_accepted url c (accepted_lt url c h)).mpr h

theorem symValue_of_accepted (url : Bool) (c : Nat) (h : accepted url c = true) :
    symValue url c = symbolValue url c :=
  (accepted_table url ⟨c, accepted_lt url c h⟩ h).1

theorem stopChar_of_accepted (url : Bool) (c : Nat) (h : accepted url c = true) :
    stopChar c = false :=
  (accepted_table url ⟨c, accepted_lt url c h⟩ h).2

/-- The bytes of `octets` for accepted characters are the complete bytes of the bit
string of their values. -/
theorem octets_accepted (url : Bool) (l : List Nat) (h : ∀ ch ∈ l, accepted url ch = true) :
    octets (l.map (symValue url)) = bytesOfBits ((l.map (symbolValue url)).flatMap bits6) := by
  have hv : l.map (symValue url) = l.map (symbolValue url) :=
    List.map_congr_left (fun ch hch => symValue_of_accepted url ch (h ch hch))
  rw [← hv, bytesOfBits_bits6]
  intro v hv
  obtain ⟨ch, hch, rfl⟩ := List.mem_map.mp hv
  exact symValue_lt url ch (isSym_of_accepted url ch (h ch hch))

theorem scanned_of_accepted (url : Bool) (l : List Nat) (n : Nat) (hn : l.length ≤ n)
    (h : ∀ ch ∈ l, accepted url ch = true) : scanned l n = l := by
  unfold scanned
  rw [List.take_of_length_le hn, List.takeWhile_eq_self_iff]
  intro ch hch
  rw [stopChar_of_accepted url ch (h ch hch)]
  rfl

theorem decodedLen_groups (k : Nat) : decodedLen (4 * k) = 3 * k := by
  unfold decodedLen
  have h1 : 4 * k / 4 = k := by omega
  have h2 : 4 * k % 4 = 0 := by omega
  rw [h1, h2]
  simp

/-! ## Claims about the failures of Decode and the absent buffer -/

/-- As compiled with `NDEBUG`: for an input of bytes in which the characters before
position `p` (within
the declared length) are symbols for `Decode` and the character at `p` is neither a
symbol nor `'='` nor null, and a present buffer of capacity at least `3 * floor(p / 4)`,
`Decode` returns false, leaves `3 * floor(p / 4)` in the capacity field and has stored
the bytes of the `floor(p / 4)` complete 4-symbol groups before `p`: the complete bytes of
the bit string of their values, which are also what `Decode` stores, successfully, for
these groups alone. -/
theorem Decode_invalid_character (s : List Nat) (n p c : Nat) (url : Bool)
    (hs : IsBytes s) (hc : c < 2 ^ 32) (hp : p < n) (hlen : p < s.length)
    (hbefore : ∀ ch ∈ s.take p, accepted url ch = true)
    (hat : accepted url (s.get ⟨p, hlen⟩) = false)
    (hnostop : stopChar (s.get ⟨p, hlen⟩) = false)
    (hcap : 3 * (p / 4) ≤ c) :
    Decode s n true c url =
      { ok := false
        cub := 3 * (p / 4)
        stores := List.enumFrom 0
          (bytesOfBits (((s.take (4 * (p / 4))).map (symbolValue url)).flatMap bits6)) } ∧
    Decode (s.take (4 * (p / 4))) (4 * (p / 4)) true c url =
      { ok := true
        cub := 3 * (p / 4)
        stores := List.enumFrom 0
          (bytesOfBits (((s.take (4 * (p / 4))).map (symbolValue url)).flatMap bits6)) } := by
  have hxb : s.get ⟨p, hlen⟩ < 256 := hs _ (List.get_mem s p hlen)
  have hw : s.take n = s.take p ++ s.get ⟨p, hlen⟩ :: (s.take n).drop (p + 1) := by
    have hlen2 : p < (s.take n).length := by
      rw [List.length_take]; omega
    have h1 := List.take_append_drop p (s.take n)
    rw [List.take_take, Nat.min_eq_left (Nat.le_of_lt hp),
      List.drop_eq_getElem_cons hlen2, List.getElem_take] at h1
    exact h1.symm
  have hsym : ∀ ch ∈ s.take p, isSym url ch = true := fun ch hch =>
    isSym_of_accepted url ch (hbefore ch hch)
  have hx : classify url (s.get ⟨p, hlen⟩) = CharClass.invalid := by
    apply classify_invalid_of
    · cases h : isSym url (s.get ⟨p, hlen⟩)
      · rfl
      · rw [(isSym_iff_accepted url _ hxb).mp h] at hat
        exact absurd hat (by decide)
    · intro hstop
      rw [(classify_stop_iff url _ hxb).mp hstop] at hnostop
      exact absurd hnostop (by decide)
  have hlp : (s.take p).length = p := by
    rw [List.length_take]; omega
  have hm : 4 * (p / 4) ≤ p := by omega
  have hgroups : ∀ ch ∈ s.take (4 * (p / 4)), accepted url ch = true := by
    intro ch hch
    apply hbefore
    have : s.take (4 * (p / 4)) = (s.take p).take (4 * (p / 4)) := by
      rw [List.take_take, Nat.min_eq_left hm]
    rw [this] at hch
    exact List.mem_of_mem_take hch
  have hlm : (s.take (4 * (p / 4))).length = 4 * (p / 4) := by
    rw [List.length_take]; omega
  constructor
  · rw [Decode_window_invalid s n true c url (s.take p) _ _ hw hsym hx (by simpa using hc)
      (by simpa [hlp] using hcap)]
    simp only [if_true, hlp, List.take_take, Nat.min_eq_left hm,
      octets_accepted url _ hgroups]
  · have hw2 : (s.take (4 * (p / 4))).take (4 * (p / 4)) = s.take (4 * (p / 4)) ++ [] := by
      rw [List.take_take, Nat.min_self, List.append_nil]
    rw [Decode_window_syms _ _ true c url (s.take (4 * (p / 4))) [] hw2 (Or.inl rfl)
      (fun ch hch => isSym_of_accepted url ch (hgroups ch hch)) (by simpa using hc)]
    have hL : decodedLen (s.take (4 * (p / 4))).length = 3 * (p / 4) := by
      rw [hlm, decodedLen_groups]
    have hlo : (octets ((s.take (4 * (p / 4))).map (symValue url))).length = 3 * (p / 4) := by
      rw [octets_length, List.length_map, hL]
    simp only [if_true, hL]
    rw [List.take_of_length_le (by rw [hlo]; exact hcap), octets_accepted url _ hgroups]
    simp only [DecodeResult.mk.injEq, decide_eq_true_eq, and_true]
    exact ⟨hcap, Nat.min_eq_left hcap⟩

/-- As compiled with `NDEBUG`: for an input whose characters before the first null or
`'='` are symbols for `Decode` and decode to `L >= 2` bytes, `Decode` with a present
buffer of
capacity 1 returns false, having stored one byte at offset 0, and leaves 1 in the
capacity field: the number of bytes written, not the required capacity `L`. -/
theorem Decode_capacity_one (s : List Nat) (n : Nat) (url : Bool)
    (hsym : ∀ ch ∈ scanned s n, accepted url ch = true)
    (hL : 2 ≤ decodedLen (scanned s n).length) :
    (Decode s n true 1 url).ok = false ∧ (Decode s n true 1 url).cub = 1 ∧
    (Decode s n true 1 url).stores =
      List.enumFrom 0
        ((bytesOfBits (((scanned s n).map (symbolValue url)).flatMap bits6)).take 1) := by
  rw [Decode_syms s n 1 url (by decide)
    (fun ch hch => isSym_of_accepted url ch (hsym ch hch)), octets_accepted url _ hsym]
  refine ⟨?_, ?_, rfl⟩
  · simp only [decide_eq_false_iff_not]; omega
  · simp only; omega

/-- Claim C14: for an input of bytes of declared length `n < 2 ^ 32 - 3`, `Decode` with
an absent output buffer and declared capacity 0 returns the same flag and leaves the same
value in the capacity field as `Decode` with a present buffer of capacity
`GetDecodeMaxOutput(n)`, and it stores nothing; when it succeeds that value is the
decoded length of the input. -/
theorem C14_decode_absent_buffer (s : List Nat) (n : Nat) (url : Bool) (hs : IsBytes s)
    (hn : n < 2 ^ 32 - 3) :
    (Decode s n false 0 url).ok = (Decode s n true (GetDecodeMaxOutput n) url).ok ∧
    (Decode s n false 0 url).cub = (Decode s n true (GetDecodeMaxOutput n) url).cub ∧
    (Decode s n false 0 url).stores = [] ∧
    ((Decode s n false 0 url).ok = true →
      (Decode s n false 0 url).cub = decodedLen (scanned s n).length) := by
  have hG : GetDecodeMaxOutput n = (n + 3) / 4 * 3 + 1 := GetDecodeMaxOutput_eq n (by omega)
  have hk := scanned_length_le s n
  have hU : U32 - 1 = 4294967295 := by decide
  rcases window_cases url s n hs with hall | ⟨syms, x, rest, hw, hsym, hx, hlt, -, -⟩
  · obtain ⟨tl, h1, h2⟩ := window_split url s n
    have hL := decodedLen_le (scanned s n).length
    rw [Decode_window_syms s n false 0 url (scanned s n) tl h1 h2 hall (by decide),
      Decode_window_syms s n true _ url (scanned s n) tl h1 h2 hall (by
        simp only [if_true]; omega)]
    simp only [if_true, Bool.false_eq_true, if_false, hU, hG, decide_eq_decide,
      decide_eq_true_eq, true_and]
    refine ⟨?_, ?_, ?_⟩ <;> omega
  · rw [Decode_window_invalid s n false 0 url syms x rest hw hsym hx (by decide) (by
        simp only [Bool.false_eq_true, if_false, hU]; omega),
      Decode_window_invalid s n true _ url syms x rest hw hsym hx (by
        simp only [if_true]; omega) (by simp only [if_true, hG]; omega)]
    simp

theorem C14_decode_absent_buffer_witness :
    (Decode (codes "lkbpmYoyhVM=") 12 false 0 false).ok =
      (Decode (codes "lkbpmYoyhVM=") 12 true (GetDecodeMaxOutput 12) false).ok ∧
    (Decode (codes "lkbpmYoyhVM=") 12 false 0 false).cub =
      (Decode (codes "lkbpmYoyhVM=") 12 true (GetDecodeMaxOutput 12) false).cub ∧
    (Decode (codes "lkbpmYoyhVM=") 12 false 0 false).stores = [] ∧
    ((Decode (codes "lkbpmYoyhVM=") 12 false 0 false).ok = true →
      (Decode (codes "lkbpmYoyhVM=") 12 false 0 false).cub =
        decodedLen (scanned (codes "lkbpmYoyhVM=") 12).length) :=
  C14_decode_absent_buffer (codes "lkbpmYoyhVM=") 12 false (by decide) (by decide)

/-- For an input of bytes of declared length `n < 2 ^ 32 - 3`, the length that a
successful `Decode` reports is at most `GetDecodeMaxOutput(n)`. -/
theorem Decode_length_le_max (s : List Nat) (n : Nat) (p : Bool) (c : Nat) (url : Bool)
    (hs : IsBytes s) (hn : n < 2 ^ 32 - 3) (hc : c < 2 ^ 32)
    (hok : (Decode s n p c url).ok = true) :
    (Decode s n p c url).cub ≤ GetDecodeMaxOutput n := by
  have hG : GetDecodeMaxOutput n = (n + 3) / 4 * 3 + 1 := GetDecodeMaxOutput_eq n (by omega)
  have hk := scanned_length_le s n
  have hU : U32 - 1 = 4294967295 := by decide
  have hc2 : (if p = true then c else U32 - 1) < 2 ^ 32 := by
    split
    · exact hc
    · rw [hU]; decide
  rcases window_cases url s n hs with hall | ⟨syms, x, rest, hw, hsym, hx, -, -, -⟩
  · obtain ⟨tl, h1, h2⟩ := window_split url s n
    have hL := decodedLen_le (scanned s n).length
    rw [Decode_window_syms s n p c url (scanned s n) tl h1 h2 hall hc2]
    simp only [hG]
    have := Nat.min_le_left (decodedLen (scanned s n).length) (if p = true then c else U32 - 1)
    omega
  · have hf := decodeRun_invalid url p x rest hx syms hsym (if p then c else U32 - 1) 0 []
    rw [Decode_eq_run, hw] at hok
    simp only at hok
    rw [hf] at hok
    exact absurd hok Bool.false_ne_true

/-- Claim C15, the code at a declared length of 4294967293: `Decode` of that many `'A'`
into a present buffer of capacity 4294967295 returns true and reports 3221225469 bytes,
where `GetDecodeMaxOutput(4294967293)` is 1. -/
theorem C15_decode_length_above_max :
    (Decode (List.replicate 4294967293 65) 4294967293 true 4294967295 false).ok = true ∧
    (Decode (List.replicate 4294967293 65) 4294967293 true 4294967295 false).cub =
      3221225469 ∧
    GetDecodeMaxOutput 4294967293 = 1 := by
  have hsc : scanned (List.replicate 4294967293 65) 4294967293 =
      List.replicate 4294967293 65 := by
    unfold scanned
    rw [List.take_replicate, Nat.min_self, List.takeWhile_replicate]
    rfl
  have hsym : ∀ ch ∈ scanned (List.replicate 4294967293 65) 4294967293,
      isSym false ch = true := by
    intro ch hch
    rw [hsc] at hch
    rw [List.eq_of_mem_replicate hch]
    decide
  have hL : decodedLen 4294967293 = 3221225469 := by decide
  rw [Decode_syms _ _ _ false (by decide) hsym, hsc, List.length_replicate, hL]
  exact ⟨by decide, by decide, by decide⟩

/-! ## The two builds -/

theorem encodeLoopA_eq (nd url : Bool) (n : Nat) (B : List Nat) :
    ∀ pch cch stores,
      encodeLoopA nd url n B pch cch stores =
        { exit := if (encodeLoop url n B pch cch stores).ok then CallExit.returned true
            else assertFalse nd
          cch := (encodeLoop url n B pch cch stores).cch
          stores := (encodeLoop url n B pch cch stores).stores } := by
  induction B using sextets.induct with
  | case1 b0 b1 b2 rest ih =>
    intro pch cch stores
    rw [encodeLoopA, encodeLoop]
    by_cases h4 : cch < 4
    · simp [h4, encodeOutOfSpace, encodeOutOfSpaceA]
    · rw [if_neg h4, if_neg h4]
      exact ih _ _ _
  | case2 b0 b1 =>
    intro pch cch stores
    rw [encodeLoopA, encodeLoop]
    by_cases h4 : cch < 4
    · simp [h4, encodeOutOfSpace, encodeOutOfSpaceA]
    · simp [h4]
  | case3 b0 =>
    intro pch cch stores
    rw [encodeLoopA, encodeLoop]
    by_cases h4 : cch < 4
    · simp [h4, encodeOutOfSpace, encodeOutOfSpaceA]
    · simp [h4]
  | case4 =>
    intro pch cch stores
    simp [encodeLoopA, encodeLoop]

/-- With a present buffer `EncodeA` does in every build what `Encode` does, except that
where `Encode` returns false the build without `NDEBUG` aborts. -/
theorem EncodeA_present (nd : Bool) (B : List Nat) (c : Nat) (url : Bool) :
    EncodeA nd B true c url =
      { exit := if (Encode B true c url).ok then CallExit.returned true else assertFalse nd
        cch := (Encode B true c url).cch
        stores := (Encode B true c url).stores } := by
  unfold EncodeA Encode
  simp only [Bool.not_true, Bool.false_eq_true, if_false]
  by_cases h0 : c = 0
  · simp [h0, encodeOutOfSpace, encodeOutOfSpaceA]
  · rw [if_neg h0, if_neg h0]
    exact encodeLoopA_eq nd url B.length B 0 (c - 1) []

/-- With `NDEBUG` the function with asserts is `Encode`. -/
theorem EncodeA_ndebug (B : List Nat) (p : Bool) (c : Nat) (url : Bool) :
    EncodeA true B p c url =
      { exit := CallExit.returned (Encode B p c url).ok
        cch := (Encode B p c url).cch
        stores := (Encode B p c url).stores } := by
  cases p
  · simp [EncodeA, Encode]
  · rw [EncodeA_present]
    cases h : (Encode B true c url).ok <;> simp [assertFalse]

theorem tailWriteA_eq (nd p : Bool) (n : Nat) : ∀ st : DecodeState,
    tailWriteA nd p n st =
      (if (tailWrite p n st).1 then CallExit.returned true else assertFalse nd,
        (tailWrite p n st).2) := by
  induction n with
  | zero => intro st; simp [tailWriteA, tailWrite]
  | succ n ih =>
    intro st
    rw [tailWriteA, tailWrite]
    by_cases h0 : st.cub = 0
    · simp [h0]
    · rw [if_neg h0, if_neg h0]
      exact ih _

theorem decodeTailA_eq (nd p : Bool) (st : DecodeState) :
    decodeTailA nd p st =
      (if (decodeTail p st).1 then CallExit.returned true else assertFalse nd,
        (decodeTail p st).2) := by
  unfold decodeTailA decodeTail
  split
  · exact tailWriteA_eq nd p _ _
  · simp

/-- The flag with which the scanning loop of `Decode` is left on a call. -/
theorem Decode_scan_failed (s : List Nat) (n : Nat) (p : Bool) (c : Nat) (url : Bool)
    (h : (decodeLoop url p (s.take n)
      ⟨1, if p then c else U32 - 1, 0, []⟩).1 = false) :
    (Decode s n p c url).ok = false := by
  unfold Decode
  simp only [h, Bool.false_eq_true, if_false]

/-- Where `Decode` returns true, or fails in the scanning loop, `DecodeA` returns the same
flag in every build, with the same capacity field and stores.  The call is one that
passes the assert of line 148: a present buffer, or a declared capacity of 0. -/
theorem DecodeA_of_returned (nd : Bool) (s : List Nat) (n : Nat) (p : Bool) (c : Nat)
    (url : Bool) (hpre : p = true ∨ c = 0)
    (h : (Decode s n p c url).ok = true ∨
      (decodeLoop url p (s.take n) ⟨1, if p then c else U32 - 1, 0, []⟩).1 = false) :
    DecodeA nd s n p c url =
      { exit := CallExit.returned (Decode s n p c url).ok
        cub := (Decode s n p c url).cub
        stores := (Decode s n p c url).stores } := by
  have hguard : (!p && !nd && c != 0) = false := by
    rcases hpre with hp | hc
    · subst hp; rfl
    · subst hc; simp
  unfold DecodeA Decode at *
  simp only [hguard, Bool.false_eq_true, if_false]
  cases hscan : (decodeLoop url p (s.take n) ⟨1, if p = true then c else U32 - 1, 0, []⟩).1
  · simp
  · simp only [hscan, if_true, Bool.true_eq_false, or_false] at h
    simp only [if_true, decodeTailA_eq, h]

/-- Where the final flush of `Decode` runs out of capacity, `DecodeA` returns false with
`NDEBUG`, with the capacity field and the stores of `Decode`, and aborts without it,
with the same stores and the capacity field as at entry. -/
theorem DecodeA_of_flush_failed (nd : Bool) (s : List Nat) (n : Nat) (p : Bool) (c : Nat)
    (url : Bool) (hpre : p = true ∨ c = 0)
    (hscan : (decodeLoop url p (s.take n) ⟨1, if p then c else U32 - 1, 0, []⟩).1 = true)
    (hok : (Decode s n p c url).ok = false) :
    DecodeA nd s n p c url =
      { exit := assertFalse nd
        cub := if nd then (Decode s n p c url).cub else c
        stores := (Decode s n p c url).stores } := by
  have hguard : (!p && !nd && c != 0) = false := by
    rcases hpre with hp | hc
    · subst hp; rfl
    · subst hc; simp
  unfold DecodeA Decode at *
  simp only [hguard, Bool.false_eq_true, if_false, hscan, if_true] at hok ⊢
  simp only [decodeTailA_eq, hok, Bool.false_eq_true, if_false]
  cases nd <;> simp [assertFalse]

/-- The scan of a run of characters none of which is invalid is left with the flag
true. -/
theorem decodeLoop_flag_true (url p : Bool) (chars : List Nat) :
    (∀ c ∈ chars, classify url c ≠ CharClass.invalid) →
      ∀ st, (decodeLoop url p chars st).1 = true := by
  induction chars with
  | nil => intro _ st; rw [decodeLoop]
  | cons c rest ih =>
    intro h st
    have hr : ∀ x ∈ rest, classify url x ≠ CharClass.invalid := fun x hx => h x (by simp [hx])
    rw [decodeLoop]
    split
    · rfl
    · rename_i hc; exact absurd hc (h c (by simp))
    · simp only
      split
      · split
        · rfl
        · exact ih hr _
      · exact ih hr _

/-- The scan of a window made of a run of symbols that the end of the input or a stop
character ends is left with the flag true. -/
theorem decodeLoop_window_flag (url p : Bool) (syms tl : List Nat) (ht : EndsScan url tl)
    (hs : ∀ ch ∈ syms, isSym url ch = true) (st : DecodeState) :
    (decodeLoop url p (syms ++ tl) st).1 = true := by
  have hsyms : (decodeLoop url p syms st).1 = true := by
    apply decodeLoop_flag_true
    intro c hc hinv
    have := classify_of_isSym url c (hs c hc)
    rw [hinv] at this
    exact CharClass.noConfusion this
  rcases ht with h | ⟨x, r, h, hx⟩
  · subst h; rw [List.append_nil]; exact hsyms
  · subst h; rw [decodeLoop_append_stop url p x r hx syms st]; exact hsyms

/-- With `NDEBUG` the function with asserts is `Decode`. -/
theorem DecodeA_ndebug (s : List Nat) (n : Nat) (p : Bool) (c : Nat) (url : Bool) :
    DecodeA true s n p c url =
      { exit := CallExit.returned (Decode s n p c url).ok
        cub := (Decode s n p c url).cub
        stores := (Decode s n p c url).stores } := by
  unfold DecodeA Decode
  simp only [Bool.not_true, Bool.and_false, Bool.false_and, Bool.false_eq_true, if_false]
  cases hscan : (decodeLoop url p (s.take n) ⟨1, if p = true then c else U32 - 1, 0, []⟩).1
  · simp
  · simp only [if_true, decodeTailA_eq]
    cases (decodeTail p (decodeLoop url p (s.take n)
      ⟨1, if p = true then c else U32 - 1, 0, []⟩).2).1 <;> simp [assertFalse]

/-- An invalid character after a run of symbols, with room for the complete groups that
precede it: the scanning loop is left through `goto decode_failed`. -/
theorem decodeLoop_invalid_flag (url p : Bool) (x : Nat) (rest : List Nat)
    (hx : classify url x = CharClass.invalid) (syms : List Nat) :
    (∀ c ∈ syms, isSym url c = true) → ∀ (cub pub : Nat) (ss : List (Nat × Nat)),
      3 * (syms.length / 4) ≤ cub →
      (decodeLoop url p (syms ++ x :: rest) ⟨1, cub, pub, ss⟩).1 = false := by
  induction syms using octets.induct with
  | case1 c0 c1 c2 c3 more ih =>
    intro hs cub pub ss hcap
    have h0 : isSym url c0 = true := hs c0 (by simp)
    have h1 : isSym url c1 = true := hs c1 (by simp)
    have h2 : isSym url c2 = true := hs c2 (by simp)
    have h3 : isSym url c3 = true := hs c3 (by simp)
    have hr : ∀ c ∈ more, isSym url c = true := fun c hc => hs c (by simp [hc])
    have hl : (c0 :: c1 :: c2 :: c3 :: more).length / 4 = more.length / 4 + 1 := by
      simp only [List.length_cons]; omega
    rw [hl] at hcap
    simp only [List.cons_append]
    rw [decodeLoop_group_flush url p c0 c1 c2 c3 _ cub pub ss h0 h1 h2 h3 (by omega)]
    exact ih hr _ _ _ (by omega)
  | case2 c0 c1 c2 =>
    intro hs cub pub ss _
    have h0 : isSym url c0 = true := hs c0 (by simp)
    have h1 : isSym url c1 = true := hs c1 (by simp)
    have h2 : isSym url c2 = true := hs c2 (by simp)
    have b0 := symValue_lt url c0 h0
    have b1 := symValue_lt url c1 h1
    have b2 := symValue_lt url c2 h2
    simp only [List.cons_append, List.nil_append]
    rw [decodeLoop_sym_acc url p c0 _ _ 1 cub pub ss (classify_of_isSym url c0 h0) b0
        (by omega),
      decodeLoop_sym_acc url p c1 _ _ _ cub pub ss (classify_of_isSym url c1 h1) b1
        (by omega),
      decodeLoop_sym_acc url p c2 _ _ _ cub pub ss (classify_of_isSym url c2 h2) b2
        (by omega),
      decodeLoop_invalid url p x rest _ hx]
  | case3 c0 c1 =>
    intro hs cub pub ss _
    have h0 : isSym url c0 = true := hs c0 (by simp)
    have h1 : isSym url c1 = true := hs c1 (by simp)
    have b0 := symValue_lt url c0 h0
    have b1 := symValue_lt url c1 h1
    simp only [List.cons_append, List.nil_append]
    rw [decodeLoop_sym_acc url p c0 _ _ 1 cub pub ss (classify_of_isSym url c0 h0) b0
        (by omega),
      decodeLoop_sym_acc url p c1 _ _ _ cub pub ss (classify_of_isSym url c1 h1) b1
        (by omega),
      decodeLoop_invalid url p x rest _ hx]
  | case4 c0 =>
    intro hs cub pub ss _
    have h0 : isSym url c0 = true := hs c0 (by simp)
    have b0 := symValue_lt url c0 h0
    simp only [List.cons_append, List.nil_append]
    rw [decodeLoop_sym_acc url p c0 _ _ 1 cub pub ss (classify_of_isSym url c0 h0) b0
        (by omega),
      decodeLoop_invalid url p x rest _ hx]
  | case5 =>
    intro _ cub pub ss _
    rw [List.nil_append, decodeLoop_invalid url p x rest _ hx]

/-! ## Claims whose failing exit runs an assert -/

/-- Claim C3, as amended: for an input of length `n` with `4 * ceil(n / 3) + 1 < 2 ^ 32`,
every declared capacity `c` of a present buffer and either mode, `Encode` returns true
exactly when `c >= GetEncodeMaxOutput(n)`; when it does not, it has left
`GetEncodeMaxOutput(n)` in the capacity field and it returns false as compiled with
`NDEBUG`, and aborts at the assert of line 127 as compiled without.  In particular a
non-empty input with capacity 1 ends in that way and reports `GetEncodeMaxOutput(n)`. -/
theorem C3_encode_capacity_outcome (NDEBUG : Bool) (B : List Nat)
    (hn : (B.length + 2) / 3 * 4 + 1 < 2 ^ 32) :
    (∀ (c : Nat) (url : Bool),
      ((EncodeA NDEBUG B true c url).exit = CallExit.returned true ↔
        GetEncodeMaxOutput B.length ≤ c) ∧
      ((EncodeA NDEBUG B true c url).exit ≠ CallExit.returned true →
        (EncodeA NDEBUG B true c url).exit = assertFalse NDEBUG ∧
        (EncodeA NDEBUG B true c url).cch = GetEncodeMaxOutput B.length)) ∧
    (B ≠ [] → ∀ url : Bool,
      (EncodeA NDEBUG B true 1 url).exit = assertFalse NDEBUG ∧
      (EncodeA NDEBUG B true 1 url).cch = GetEncodeMaxOutput B.length) := by
  have hne : assertFalse NDEBUG ≠ CallExit.returned true := by
    cases NDEBUG <;> decide
  obtain ⟨h1, h2⟩ := Encode_succeeds_iff_capacity B hn
  constructor
  · intro c url
    obtain ⟨hiff, hcch⟩ := h1 c url
    rw [EncodeA_present]
    cases hok : (Encode B true c url).ok
    · rw [hok] at hiff hcch
      simp only [Bool.false_eq_true, if_false]
      refine ⟨⟨fun h => absurd h hne, fun h => ?_⟩, fun _ => ⟨trivial, hcch rfl⟩⟩
      exact absurd (hiff.mpr h) (by decide)
    · rw [hok] at hiff
      simp only [if_true]
      exact ⟨⟨fun _ => hiff.mp rfl, fun _ => trivial⟩, fun h => absurd rfl h⟩
  · intro hB url
    obtain ⟨hok, hcch⟩ := h2 hB url
    rw [EncodeA_present, hok]
    exact ⟨rfl, hcch⟩

theorem C3_encode_capacity_outcome_witness :
    (∀ (c : Nat) (url : Bool),
      ((EncodeA false [7, 8] true c url).exit = CallExit.returned true ↔
        GetEncodeMaxOutput [7, 8].length ≤ c) ∧
      ((EncodeA false [7, 8] true c url).exit ≠ CallExit.returned true →
        (EncodeA false [7, 8] true c url).exit = assertFalse false ∧
        (EncodeA false [7, 8] true c url).cch = GetEncodeMaxOutput [7, 8].length)) ∧
    ([7, 8] ≠ [] → ∀ url : Bool,
      (EncodeA false [7, 8] true 1 url).exit = assertFalse false ∧
      (EncodeA false [7, 8] true 1 url).cch = GetEncodeMaxOutput [7, 8].length) :=
  C3_encode_capacity_outcome false [7, 8] (by decide)

/-- Claim C3 as stated fails on the source as it is written, without `NDEBUG`: `Encode`
of the two bytes 7, 8 into a present buffer of capacity 1 does not return false, it
aborts at the assert of line 127, after it has stored the terminator at offset 0 and 5 in
the capacity field. -/
theorem C3_counterexample :
    ([7, 8].length + 2) / 3 * 4 + 1 < 2 ^ 32 ∧
    EncodeA false [7, 8] true 1 false =
      { exit := CallExit.aborted, cch := 5, stores := [(0, 0)] } ∧
    (EncodeA false [7, 8] true 1 false).exit ≠ CallExit.returned false := by
  decide

/-- Claim C19: for an input of length `n` and a present buffer of capacity `c` with
`1 <= c < GetEncodeMaxOutput(n)`, `Encode` fails: it returns false as compiled with
`NDEBUG` and aborts at the assert of line 127 as compiled without.  In either build its
stores are, from offset 0, the `4 * j` symbols of the first
`j = min(floor(n / 3), floor((c - 1) / 4))` complete 3-byte groups, a prefix of the full
encoding, followed by a null terminator at offset `4 * j`; nothing of a group that does
not fit, and nothing of the trailing group of 1 or 2 bytes, is stored. -/
theorem C19_encode_failure_outcome (NDEBUG : Bool) (B : List Nat) (c : Nat) (url : Bool)
    (h1 : 1 ≤ c) (h2 : c < GetEncodeMaxOutput B.length) :
    (EncodeA NDEBUG B true c url).exit = assertFalse NDEBUG ∧
    (EncodeA NDEBUG B true c url).stores =
      List.enumFrom 0
        (encodeChars url (B.take (3 * min (B.length / 3) ((c - 1) / 4))) ++ [0]) ∧
    (encodeChars url (B.take (3 * min (B.length / 3) ((c - 1) / 4)))).length =
      4 * min (B.length / 3) ((c - 1) / 4) ∧
    encodeChars url (B.take (3 * min (B.length / 3) ((c - 1) / 4))) =
      (encodeChars url B).take (4 * min (B.length / 3) ((c - 1) / 4)) ∧
    ∀ ch ∈ encodeChars url (B.take (3 * min (B.length / 3) ((c - 1) / 4))),
      ch ∈ alphabet url := by
  obtain ⟨hok, hst, hlen, htake, hmem⟩ := Encode_failure_stores B c url h1 h2
  rw [EncodeA_present, hok]
  exact ⟨rfl, hst, hlen, htake, hmem⟩

theorem C19_encode_failure_outcome_witness :
    (EncodeA false [1, 2, 3, 4, 5, 6, 7] true 7 false).exit = CallExit.aborted ∧
    (EncodeA false [1, 2, 3, 4, 5, 6, 7] true 7 false).stores =
      List.enumFrom 0 (codes "AQID" ++ [0]) :=
  ⟨(C19_encode_failure_outcome false [1, 2, 3, 4, 5, 6, 7] 7 false (by decide)
      (by decide)).1,
    (C19_encode_failure_outcome false [1, 2, 3, 4, 5, 6, 7] 7 false (by decide)
      (by decide)).2.1.trans (by decide)⟩

/-- Claim C12, as amended: for an input whose characters before the first null or `'='`
are symbols for `Decode` and decode to `L >= 2` bytes, `Decode` with a present buffer of
capacity 1 stores one byte, the first decoded byte, at offset 0 and then fails in the
final flush: it returns false as compiled with `NDEBUG`, leaving 1, the number of bytes
written, in the capacity field, and it aborts at the assert of line 232 as compiled
without, the capacity field still at 1.  The required capacity `L` is not reported. -/
theorem C12_decode_capacity_one_outcome (NDEBUG : Bool) (s : List Nat) (n : Nat)
    (url : Bool) (hsym : ∀ ch ∈ scanned s n, accepted url ch = true)
    (hL : 2 ≤ decodedLen (scanned s n).length) :
    (DecodeA NDEBUG s n true 1 url).exit = assertFalse NDEBUG ∧
    (DecodeA NDEBUG s n true 1 url).cub = 1 ∧
    (DecodeA NDEBUG s n true 1 url).stores =
      List.enumFrom 0
        ((bytesOfBits (((scanned s n).map (symbolValue url)).flatMap bits6)).take 1) := by
  obtain ⟨hok, hcub, hst⟩ := Decode_capacity_one s n url hsym hL
  obtain ⟨tl, hw, ht⟩ := window_split url s n
  have hscan : (decodeLoop url true (s.take n)
      ⟨1, if true = true then 1 else U32 - 1, 0, []⟩).1 = true := by
    rw [hw]
    exact decodeLoop_window_flag url true (scanned s n) tl ht
      (fun ch hch => isSym_of_accepted url ch (hsym ch hch)) _
  rw [DecodeA_of_flush_failed NDEBUG s n true 1 url (Or.inl rfl) hscan hok, hcub, hst]
  refine ⟨rfl, ?_, rfl⟩
  cases NDEBUG <;> rfl

theorem C12_decode_capacity_one_outcome_witness :
    (DecodeA false (codes "AAAA") 4 true 1 false).exit = CallExit.aborted ∧
    (DecodeA false (codes "AAAA") 4 true 1 false).cub = 1 ∧
    (DecodeA false (codes "AAAA") 4 true 1 false).stores = [(0, 0)] :=
  ⟨(C12_decode_capacity_one_outcome false (codes "AAAA") 4 false (by decide) (by decide)).1,
    (C12_decode_capacity_one_outcome false (codes "AAAA") 4 false (by decide)
      (by decide)).2.1,
    (C12_decode_capacity_one_outcome false (codes "AAAA") 4 false (by decide)
      (by decide)).2.2.trans (by decide)⟩

/-- Claim C12 as stated fails in either build: the non-empty input `"AA"` decodes to one
byte and `Decode` with capacity 1 returns true; `"AAAA"` decodes to three bytes (a
capacity of 3 succeeds) and `Decode` with capacity 1 returns false with 1, not 3, in the
capacity field as compiled with `NDEBUG`, and aborts as compiled without. -/
theorem C12_counterexample :
    DecodeA true (codes "AA") 2 true 1 false =
      { exit := CallExit.returned true, cub := 1, stores := [(0, 0)] } ∧
    DecodeA false (codes "AA") 2 true 1 false =
      { exit := CallExit.returned true, cub := 1, stores := [(0, 0)] } ∧
    DecodeA true (codes "AAAA") 4 true 1 false =
      { exit := CallExit.returned false, cub := 1, stores := [(0, 0)] } ∧
    DecodeA false (codes "AAAA") 4 true 1 false =
      { exit := CallExit.aborted, cub := 1, stores := [(0, 0)] } ∧
    DecodeA true (codes "AAAA") 4 true 3 false =
      { exit := CallExit.returned true, cub := 3, stores := [(0, 0), (1, 0), (2, 0)] } := by
  decide

/-- Claim C11, as amended: for an input of bytes in which the characters before position
`p` (within the declared length) are symbols of the selected alphabet or, in URL-safe
mode, `'+'` or `'/'`, and the character at `p` is none of these and is neither `'='` nor
null, and a present buffer of capacity at least `3 * floor(p / 4)`, `Decode` returns
false in either build (no assert is on this path), leaves `3 * floor(p / 4)` in the
capacity field and has stored the bytes of the `floor(p / 4)` complete 4-symbol groups
before `p`: the complete bytes of the bit string of their values, which are also what
`Decode` stores, successfully, for these groups alone. -/
theorem C11_decode_invalid_character_outcome (NDEBUG : Bool) (s : List Nat) (n p c : Nat)
    (url : Bool) (hs : IsBytes s) (hc : c < 2 ^ 32) (hp : p < n) (hlen : p < s.length)
    (hbefore : ∀ ch ∈ s.take p, accepted url ch = true)
    (hat : accepted url (s.get ⟨p, hlen⟩) = false)
    (hnostop : stopChar (s.get ⟨p, hlen⟩) = false)
    (hcap : 3 * (p / 4) ≤ c) :
    DecodeA NDEBUG s n true c url =
      { exit := CallExit.returned false
        cub := 3 * (p / 4)
        stores := List.enumFrom 0
          (bytesOfBits (((s.take (4 * (p / 4))).map (symbolValue url)).flatMap bits6)) } ∧
    DecodeA NDEBUG (s.take (4 * (p / 4))) (4 * (p / 4)) true c url =
      { exit := CallExit.returned true
        cub := 3 * (p / 4)
        stores := List.enumFrom 0
          (bytesOfBits (((s.take (4 * (p / 4))).map (symbolValue url)).flatMap bits6)) } := by
  obtain ⟨h1, h2⟩ := Decode_invalid_character s n p c url hs hc hp hlen hbefore hat hnostop
    hcap
  have hxb : s.get ⟨p, hlen⟩ < 256 := hs _ (List.get_mem s p hlen)
  have hw : s.take n = s.take p ++ s.get ⟨p, hlen⟩ :: (s.take n).drop (p + 1) := by
    have hlen2 : p < (s.take n).length := by
      rw [List.length_take]; omega
    have h3 := List.take_append_drop p (s.take n)
    rw [List.take_take, Nat.min_eq_left (Nat.le_of_lt hp),
      List.drop_eq_getElem_cons hlen2, List.getElem_take] at h3
    exact h3.symm
  have hx : classify url (s.get ⟨p, hlen⟩) = CharClass.invalid := by
    apply classify_invalid_of
    · cases h : isSym url (s.get ⟨p, hlen⟩)
      · rfl
      · rw [(isSym_iff_accepted url _ hxb).mp h] at hat
        exact absurd hat (by decide)
    · intro hstop
      rw [(classify_stop_iff url _ hxb).mp hstop] at hnostop
      exact absurd hnostop (by decide)
  have hlp : (s.take p).length = p := by
    rw [List.length_take]; omega
  have hscan : (decodeLoop url true (s.take n)
      ⟨1, if true = true then c else U32 - 1, 0, []⟩).1 = false := by
    rw [hw]
    exact decodeLoop_invalid_flag url true _ _ hx (s.take p)
      (fun ch hch => isSym_of_accepted url ch (hbefore ch hch)) _ 0 []
      (by simpa [hlp] using hcap)
  constructor
  · rw [DecodeA_of_returned NDEBUG s n true c url (Or.inl rfl) (Or.inr hscan), h1]
  · rw [DecodeA_of_returned NDEBUG _ _ true c url (Or.inl rfl) (Or.inl (by rw [h2])), h2]

theorem C11_decode_invalid_character_outcome_witness :
    DecodeA false (codes "lkbpmY!x") 8 true 3 false =
      { exit := CallExit.returned false, cub := 3,
        stores := [(0, 0x96), (1, 0x46), (2, 0xe9)] } :=
  (C11_decode_invalid_character_outcome false (codes "lkbpmY!x") 8 6 3 false (by decide)
    (by decide) (by decide) (by decide) (by decide) (by decide) (by decide)
    (by decide)).1.trans (by decide)

/-- Claim C11 as stated fails in URL-safe mode: in `"AAAA+AAA"` the first character that
is not a symbol of the URL-safe alphabet is the `'+'` at position 4, which is neither
`'='` nor null, and the capacity 6 is at least `3 * floor(4 / 4)`; `Decode` takes `'+'`
for the symbol 62 and returns true with 6 bytes, in either build. -/
theorem C11_counterexample :
    IsBytes (codes "AAAA+AAA") ∧
    (∀ ch ∈ (codes "AAAA+AAA").take 4, ch ∈ alphabet true) ∧
    (codes "AAAA+AAA").getD 4 0 = 43 ∧ 43 ∉ alphabet true ∧ stopChar 43 = false ∧
    3 * (4 / 4) ≤ 6 ∧
    Decode (codes "AAAA+AAA") 8 true 6 true =
      { ok := true, cub := 6,
        stores := [(0, 0), (1, 0), (2, 0), (3, 0xf8), (4, 0), (5, 0)] } ∧
    (DecodeA false (codes "AAAA+AAA") 8 true 6 true).exit = CallExit.returned true ∧
    (DecodeA true (codes "AAAA+AAA") 8 true 6 true).exit = CallExit.returned true := by
  decide

end base64
